import Mathlib

/-!
# Verification of the Giapetto LP notebook and its LP-solver-core specification

The repository is a notebook that formulates the Giapetto's Woodcarving linear
program with two integer variables, a linear objective and three `≤`
constraints, and hands it to an external LP solver.  The specification
additionally describes a self-contained "Linear Program Solver Core" (model
builder, standard-form transformer, two-phase primal simplex engine, solution
reporter), which is not part of the repository's sources.  Below we embed

* the notebook's expression and model construction faithfully, and
* the solver core, modelled from the specification, executable over `ℚ`
  (exact rational arithmetic in place of the specification's floating point,
  with the specification's tolerances `1e-9` and `1e-6` as rational constants),

and we prove the specification's claims about them.
-/

set_option maxRecDepth 4000

/- The Batteries rational-number operations are `@[irreducible]`, which blocks
`decide`-style evaluation of the solver on concrete models; the kernel itself
ignores reducibility, so restoring the default setting is sound. -/
set_option allowUnsafeReducibility true
attribute [semireducible] Rat.mul Rat.add Rat.sub Rat.div Rat.inv

/-- The specification's uniform numerical tolerance `1e-9` (§4.3). -/
def tol : ℚ := 1 / 1000000000

/-- The round-trip tolerance `1e-6` of the specification's testable property (§8). -/
def tol6 : ℚ := 1 / 1000000

/-! ## Linear expressions (§3) -/

/-- Modelled from the spec: a `LinearExpression` is a mapping from
variable identity to coefficient together with a constant term; duplicate
variable entries are merged by summing coefficients on insertion. -/
structure LinearExpression where
  terms : List (String × ℚ)
  constant : ℚ
deriving DecidableEq

/-- Total coefficient of a variable in a linear expression. -/
def LinearExpression.coeff (e : LinearExpression) (x : String) : ℚ :=
  ((e.terms.filter (fun t => t.1 = x)).map (fun t => t.2)).sum

/-- Insert a single term, summing with an existing coefficient for the same name. -/
def LinearExpression.addTerm (e : LinearExpression) (x : String) (q : ℚ) : LinearExpression :=
  if e.terms.any (fun t => t.1 = x) then
    { e with terms := e.terms.map (fun t => if t.1 = x then (t.1, t.2 + q) else t) }
  else
    { e with terms := e.terms ++ [(x, q)] }

/-- Sum of two linear expressions, merging coefficients by variable name. -/
def LinearExpression.add (a b : LinearExpression) : LinearExpression :=
  { (b.terms.foldl (fun acc t => acc.addTerm t.1 t.2) a) with
    constant := a.constant + b.constant }

/-- Scalar multiple of a linear expression. -/
def LinearExpression.smulQ (q : ℚ) (e : LinearExpression) : LinearExpression :=
  ⟨e.terms.map (fun t => (t.1, q * t.2)), q * e.constant⟩

instance : Add LinearExpression := ⟨LinearExpression.add⟩
instance : Neg LinearExpression := ⟨fun e => LinearExpression.smulQ (-1) e⟩
instance : Sub LinearExpression := ⟨fun a b => a + (-b)⟩
instance : HMul ℚ LinearExpression LinearExpression := ⟨LinearExpression.smulQ⟩

/-- The linear expression consisting of a single variable. -/
def LinearExpression.ofVar (x : String) : LinearExpression := ⟨[(x, 1)], 0⟩

/-- Evaluate a linear expression at an assignment of rationals to names. -/
def LinearExpression.eval (e : LinearExpression) (σ : String → ℚ) : ℚ :=
  ((e.terms.map (fun t => t.2 * σ t.1)).sum) + e.constant

/-! ## Variables, constraints, models (§3, §6) -/

/-- Modelled from the spec: variable domain tag. -/
inductive Domain
  | continuous
  | integer
deriving DecidableEq

/-- Modelled from the spec: relational operator of a constraint. -/
inductive ConstraintOp
  | le
  | eq
  | ge
deriving DecidableEq

/-- Modelled from the spec: a constraint is a linear expression, an operator
and a right-hand-side constant. -/
structure Constraint where
  expr : LinearExpression
  op : ConstraintOp
  rhs : ℚ
deriving DecidableEq

instance : Inhabited LinearExpression := ⟨⟨[], 0⟩⟩

instance : Inhabited Constraint := ⟨⟨⟨[], 0⟩, ConstraintOp.le, 0⟩⟩

/-- Modelled from the spec: objective sense. -/
inductive Sense
  | maximize
  | minimize
deriving DecidableEq

/-- Modelled from the spec: a variable has a name, bounds and a domain tag;
`upper = none` encodes `+∞`. -/
structure VarDecl where
  name : String
  lower : ℚ
  upper : Option ℚ
  domain : Domain
deriving DecidableEq

instance : Inhabited VarDecl := ⟨⟨"", 0, none, Domain.continuous⟩⟩

/-- Modelled from the spec: a model is an ordered sequence of variables
(insertion order = column order), an objective with a sense, and an ordered
sequence of constraints. -/
structure Model where
  vars : List VarDecl
  objective : LinearExpression
  sense : Sense
  constraints : List Constraint
deriving DecidableEq

/-- Satisfaction of one constraint within a tolerance `ε`, at a rational
assignment (the specification's round-trip check, §8). -/
def Constraint.satisfiedWithin (c : Constraint) (σ : String → ℚ) (ε : ℚ) : Prop :=
  match c.op with
  | ConstraintOp.le => c.expr.eval σ ≤ c.rhs + ε
  | ConstraintOp.ge => c.rhs - ε ≤ c.expr.eval σ
  | ConstraintOp.eq => |c.expr.eval σ - c.rhs| ≤ ε

instance (c : Constraint) (σ : String → ℚ) (ε : ℚ) :
    Decidable (c.satisfiedWithin σ ε) := by
  unfold Constraint.satisfiedWithin
  cases c.op <;> infer_instance

/-! ## Model builder (§4.1, §7) -/

/-- Modelled from the spec: the builder error taxonomy (§7). -/
inductive BuildError
  | duplicateVariable
  | unknownVariable
  | emptyObjective
  | emptyModel
deriving DecidableEq

/-- Modelled from the spec: the mutable state accumulated by the model builder. -/
structure ModelBuilder where
  vars : List VarDecl
  objective : Option (LinearExpression × Sense)
  constraints : List Constraint
deriving DecidableEq

/-- `build_model()`: a fresh builder. -/
def build_model : ModelBuilder := ⟨[], none, []⟩

/-- Modelled from the spec: `add_variable` fails with `DuplicateVariable`
if the name already exists (§4.1). -/
def ModelBuilder.add_variable (b : ModelBuilder) (nm : String) (lower : ℚ)
    (upper : Option ℚ) (dom : Domain) : Except BuildError ModelBuilder :=
  if b.vars.any (fun v => v.name = nm) then Except.error BuildError.duplicateVariable
  else Except.ok { b with vars := b.vars ++ [⟨nm, lower, upper, dom⟩] }

/-- Modelled from the spec: `set_objective` replaces any prior objective (§4.1). -/
def ModelBuilder.set_objective (b : ModelBuilder) (e : LinearExpression)
    (s : Sense) : ModelBuilder :=
  { b with objective := some (e, s) }

/-- Modelled from the spec: `add_constraint` appends to the ordered constraint
sequence and fails with `UnknownVariable` if the expression references a
variable not yet added (§4.1). -/
def ModelBuilder.add_constraint (b : ModelBuilder) (e : LinearExpression)
    (op : ConstraintOp) (rhs : ℚ) : Except BuildError ModelBuilder :=
  if e.terms.all (fun t => b.vars.any (fun v => v.name = t.1)) then
    Except.ok { b with constraints := b.constraints ++ [⟨e, op, rhs⟩] }
  else Except.error BuildError.unknownVariable

/-- Modelled from the spec: `build` fails with `EmptyObjective` if no objective
was set, `EmptyModel` if no variables exist, and otherwise returns an
immutable `Model` (§4.1). -/
def ModelBuilder.build (b : ModelBuilder) : Except BuildError Model :=
  match b.objective with
  | none => Except.error BuildError.emptyObjective
  | some (e, s) =>
    if b.vars.isEmpty then Except.error BuildError.emptyModel
    else Except.ok ⟨b.vars, e, s, b.constraints⟩

/-! ## Standard-form transformer (§4.2)

Column layout of the standard form: structural (shifted) variables occupy
columns `0 .. nv-1`, one slack/surplus column per row occupies columns
`nv .. nv+m-1` (an equality row's column is identically zero and therefore
inert), and the artificial columns follow, one per row that needs one.
-/

/-- A constraint row after the variable shift `x = x' + l`, before slack and
artificial columns are added: structural coefficients, operator and
right-hand side. -/
structure PreRow where
  coef : Nat → ℚ
  op : ConstraintOp
  rhs : ℚ

instance : Inhabited PreRow := ⟨⟨fun _ => 0, ConstraintOp.le, 0⟩⟩

/-- A standard-form row: structural coefficients, the coefficient of the row's
own slack/surplus column, whether the row carries an artificial variable, and
a non-negative right-hand side (rows with negative right-hand side have been
multiplied by `-1`, §4.2). -/
structure SRow where
  coef : Nat → ℚ
  slack : ℚ
  art : Bool
  rhs : ℚ

instance : Inhabited SRow := ⟨⟨fun _ => 0, 0, false, 0⟩⟩

/-- Number of structural variables (columns before slacks). -/
def Model.nv (md : Model) : Nat := md.vars.length

/-- Name of the `j`-th variable. -/
def Model.varName (md : Model) (j : Nat) : String := (md.vars.getD j default).name

/-- Lower bound of the `j`-th variable. -/
def Model.lowerB (md : Model) (j : Nat) : ℚ := (md.vars.getD j default).lower

/-- Modelled from the spec: the variable shift and upper-bound encoding of
§4.2.  Each constraint contributes a row over the shifted variables
`x = x' + l`; each finite upper bound `u` contributes an added row
`x' ≤ u - l`. -/
def Model.preRows (md : Model) : List PreRow :=
  md.constraints.map (fun c =>
    { coef := fun j => if j < md.nv then c.expr.coeff (md.varName j) else 0
      op := c.op
      rhs := c.rhs - c.expr.constant
        - ∑ j in Finset.range md.nv, c.expr.coeff (md.varName j) * md.lowerB j })
  ++ (List.range md.nv).filterMap (fun j =>
      match (md.vars.getD j default).upper with
      | none => none
      | some u => some
          { coef := fun k => if k = j then (1 : ℚ) else 0
            op := ConstraintOp.le
            rhs := u - md.lowerB j })

/-- Slack (`+1`), surplus (`-1`) or absent (`0`) coefficient of a row's own
slack column, by operator. -/
def PreRow.slackCoeff (r : PreRow) : ℚ :=
  match r.op with
  | ConstraintOp.le => 1
  | ConstraintOp.ge => -1
  | ConstraintOp.eq => 0

/-- Whether the row is a `≤` row. -/
def PreRow.isLe (r : PreRow) : Bool :=
  match r.op with
  | ConstraintOp.le => true
  | _ => false

/-- Modelled from the spec: slack/surplus coefficient, row normalization by
`-1` for negative right-hand sides, and the artificial-variable rule of §4.2
(every row that is not a `≤` row with non-negative right-hand side receives an
artificial variable). -/
def PreRow.toSRow (r : PreRow) : SRow :=
  if r.rhs < 0 then ⟨fun j => -(r.coef j), -r.slackCoeff, true, -r.rhs⟩
  else ⟨r.coef, r.slackCoeff, !r.isLe, r.rhs⟩

/-- The standard-form rows of a model. -/
def Model.srows (md : Model) : List SRow := md.preRows.map PreRow.toSRow

/-- Number of standard-form rows. -/
def Model.mRows (md : Model) : Nat := md.srows.length

/-- The `i`-th standard-form row. -/
def Model.srowAt (md : Model) (i : Nat) : SRow := md.srows.getD i default

/-- Index of row `i`'s artificial column among the artificial columns. -/
def Model.artIdx (md : Model) (i : Nat) : Nat :=
  ((md.srows.take i).filter (fun r => r.art)).length

/-- Number of artificial columns. -/
def Model.na (md : Model) : Nat := (md.srows.filter (fun r => r.art)).length

/-- First artificial column index. -/
def Model.artStart (md : Model) : Nat := md.nv + md.mRows

/-- Total number of standard-form columns. -/
def Model.nCols (md : Model) : Nat := md.nv + md.mRows + md.na

/-! ## The simplex tableau (§4.3) -/

/-- The simplex working state: `m` rows, `n` columns, the constraint matrix
`A`, right-hand sides `b`, the objective row `obj` with its value cell
`objVal` (the row reads `z + Σⱼ obj j · xⱼ = objVal`), and the basis mapping
from row index to basic column. -/
structure Tableau where
  m : Nat
  n : Nat
  A : Nat → Nat → ℚ
  b : Nat → ℚ
  obj : Nat → ℚ
  objVal : ℚ
  basis : Nat → Nat

/-- Initial tableau of a model: standard-form rows with unit slack or
artificial columns; the basis is the slack column for plain `≤` rows and the
artificial column otherwise. -/
def mkTableau (md : Model) : Tableau :=
  { m := md.mRows
    n := md.nCols
    A := fun i j =>
      (if j < md.nv then (md.srowAt i).coef j else 0)
      + (if j = md.nv + i then (md.srowAt i).slack else 0)
      + (if (md.srowAt i).art = true ∧ j = md.artStart + md.artIdx i then 1 else 0)
    b := fun i => (md.srowAt i).rhs
    obj := fun _ => 0
    objVal := 0
    basis := fun i => if (md.srowAt i).art then md.artStart + md.artIdx i else md.nv + i }

/-- Row `i` of the tableau applied to a point, `Σⱼ A i j · x j`. -/
def Tableau.dot (T : Tableau) (i : Nat) (x : Nat → ℚ) : ℚ :=
  ∑ j in Finset.range T.n, T.A i j * x j

/-- Install an objective row: price out the basic columns so that every basic
column's reduced cost is zero (`z + Σ raw j · x j = rawVal` minus the basic
rows). -/
def Tableau.priceOut (T : Tableau) (raw : Nat → ℚ) (rawVal : ℚ) : Tableau :=
  { T with
    obj := fun j => raw j - ∑ i in Finset.range T.m, raw (T.basis i) * T.A i j
    objVal := rawVal - ∑ i in Finset.range T.m, raw (T.basis i) * T.b i }

/-- Gauss–Jordan pivot at row `r`, column `c` (§4.3): the pivot row is scaled
so the pivot entry becomes `1`, every other row and the objective row get the
appropriate multiple subtracted, and the basis mapping is updated. -/
def Tableau.pivot (T : Tableau) (r c : Nat) : Tableau :=
  { m := T.m
    n := T.n
    A := fun i j =>
      if i = r then T.A r j / T.A r c
      else T.A i j - T.A i c * (T.A r j / T.A r c)
    b := fun i =>
      if i = r then T.b r / T.A r c
      else T.b i - T.A i c * (T.b r / T.A r c)
    obj := fun j => T.obj j - T.obj c * (T.A r j / T.A r c)
    objVal := T.objVal - T.obj c * (T.b r / T.A r c)
    basis := fun i => if i = r then c else T.basis i }

/-- Entering-column scan over columns `0 .. k-1`: most negative reduced cost
below `-tol`, ties broken by lowest column index (Dantzig's rule, §4.3). -/
def pickEnter (T : Tableau) : Nat → Option Nat
  | 0 => none
  | j + 1 =>
    let best := pickEnter T j
    if T.obj j < -tol then
      match best with
      | none => some j
      | some e => if T.obj j < T.obj e then some j else some e
    else best

/-- The entering column of the tableau, if any. -/
def Tableau.chooseEnter (T : Tableau) : Option Nat := pickEnter T T.n

/-- Leaving-row scan over rows `0 .. k-1`: minimum ratio `b i / A i e` over
rows with positive entry in the entering column, ties broken by lowest
basic-variable index (§4.3). -/
def pickLeave (T : Tableau) (e : Nat) : Nat → Option Nat
  | 0 => none
  | i + 1 =>
    let best := pickLeave T e i
    if 0 < T.A i e then
      match best with
      | none => some i
      | some r =>
        if T.b i / T.A i e < T.b r / T.A r e then some i
        else if T.b i / T.A i e = T.b r / T.A r e ∧ T.basis i < T.basis r then some i
        else some r
    else best

/-- The leaving row for entering column `e`, if the column has a positive
entry in some row. -/
def Tableau.chooseLeave (T : Tableau) (e : Nat) : Option Nat := pickLeave T e T.m

/-- Outcome of a simplex phase. -/
inductive LoopResult
  | optimal (T : Tableau)
  | unbounded (T : Tableau)
  | iterLimit

/-- The simplex pivoting loop (§4.3), with the specification's defensive
iteration cap (§5) supplied as fuel: no entering column means optimality; an
entering column with no positive row entry means unboundedness; otherwise
pivot and repeat. -/
def simplexLoop : Nat → Tableau → LoopResult
  | 0, _ => LoopResult.iterLimit
  | fuel + 1, T =>
    match T.chooseEnter with
    | none => LoopResult.optimal T
    | some e =>
      match T.chooseLeave e with
      | none => LoopResult.unbounded T
      | some r => simplexLoop fuel (T.pivot r e)

/-- The specification's recommended iteration cap `10 * (rows + columns)` (§5). -/
def fuelOf (T : Tableau) : Nat := 10 * (T.m + T.n)

/-! ## Phase transition: dropping the artificial columns (§4.3)

The specification says only "drop artificial columns and enter Phase 2 using
the Phase-1 final basis".  When an artificial variable is still basic at the
end of Phase 1 the drop is underdetermined; we complete it in the standard
way: such a row is pivoted at its first structurally nonzero column, and a row
with no such column (a redundant row) is deleted together with the artificial
columns. -/

/-- Pivot row `i` out of an artificial basis column if possible. -/
def Tableau.pivotOutStep (T : Tableau) (artStart i : Nat) : Tableau :=
  if artStart ≤ T.basis i then
    match (List.range artStart).find? (fun j => decide (T.A i j ≠ 0)) with
    | some j => T.pivot i j
    | none => T
  else T

/-- Pivot all rows `0 .. k-1` out of artificial basis columns. -/
def pivotOutUpTo (T : Tableau) (artStart : Nat) : Nat → Tableau
  | 0 => T
  | i + 1 => (pivotOutUpTo T artStart i).pivotOutStep artStart i

/-- Pivot every row out of an artificial basis column where possible. -/
def Tableau.pivotOutAll (T : Tableau) (artStart : Nat) : Tableau :=
  pivotOutUpTo T artStart T.m

/-- Rows kept when the artificial columns are dropped: those whose basic
column is not artificial. -/
def Tableau.keepRows (T : Tableau) (artStart : Nat) : List Nat :=
  (List.range T.m).filter (fun i => T.basis i < artStart)

/-- Drop the artificial columns (and the redundant rows still basic in one). -/
def Tableau.dropArt (T : Tableau) (artStart : Nat) : Tableau :=
  let keep := T.keepRows artStart
  { m := keep.length
    n := artStart
    A := fun i j => T.A (keep.getD i 0) j
    b := fun i => T.b (keep.getD i 0)
    obj := fun _ => 0
    objVal := 0
    basis := fun i => T.basis (keep.getD i 0) }

/-! ## Objective rows of the two phases -/

/-- Sense-adjusted objective coefficient of structural column `j`: the engine
only maximizes internally, a minimize objective is negated (§4.2). -/
def Model.ctilde (md : Model) (j : Nat) : ℚ :=
  (match md.sense with
   | Sense.maximize => (1 : ℚ)
   | Sense.minimize => -1) * md.objective.coeff (md.varName j)

/-- Phase-1 objective row: `z = -Σ artificials`, written `z + Σ aᵢ = 0`. -/
def Model.rawP1 (md : Model) : Nat → ℚ := fun j => if md.artStart ≤ j then 1 else 0

/-- Phase-2 objective row: `z = Σ c̃ⱼ x'ⱼ`, written `z + Σ (-c̃ⱼ) x'ⱼ = 0`. -/
def Model.rawP2 (md : Model) : Nat → ℚ := fun j => if j < md.nv then -(md.ctilde j) else 0

/-! ## Results and the solution reporter (§3, §4.4) -/

/-- Modelled from the spec: the closed set of solve outcomes, with variable
values and objective value present only in the optimal case; `relaxationOnly`
tags an optimum of an integer-tagged model whose relaxed solution is not
integral within tolerance (§4.3). -/
inductive SolverResult
  | optimal (values : List (String × ℚ)) (objValue : ℚ) (relaxationOnly : Bool)
  | infeasible
  | unbounded
  | iterationLimitExceeded
deriving DecidableEq

/-- The basic solution of a tableau: a basic column takes its row's
right-hand side, every other column takes `0`. -/
def Tableau.basicSol (T : Tableau) : Nat → ℚ := fun j =>
  match (List.range T.m).find? (fun i => T.basis i == j) with
  | some i => T.b i
  | none => 0

/-- Assignment induced by a reported list of variable values. -/
def assignOf (values : List (String × ℚ)) : String → ℚ := fun nm =>
  match values.find? (fun p => p.1 == nm) with
  | some p => p.2
  | none => 0

/-- Integrality within the specification's tolerance (§4.3). -/
def isIntegralWithin (q : ℚ) : Bool := decide (|q - ((round q : ℤ) : ℚ)| ≤ tol)

/-- Modelled from the spec: the solution reporter (§4.4) maps the final basic
solution back through the variable shift and reports the objective value at
the reported point. -/
def Model.mkResult (md : Model) (T2 : Tableau) : SolverResult :=
  let values := (List.range md.nv).map (fun j => (md.varName j, T2.basicSol j + md.lowerB j))
  let objValue := md.objective.eval (assignOf values)
  let hasInt := md.vars.any (fun v => v.domain == Domain.integer)
  let intsOk := (List.range md.nv).all (fun j =>
    !((md.vars.getD j default).domain == Domain.integer)
    || isIntegralWithin (T2.basicSol j + md.lowerB j))
  SolverResult.optimal values objValue (hasInt && !intsOk)

/-! ## The solver (§4.3, §6) -/

/-- Phase-1 outcome: skipped when no artificial variable exists, otherwise
the result of running the simplex loop on the phase-1 objective. -/
inductive Phase1Out
  | skipped (T : Tableau)
  | ran (r : LoopResult)

/-- Run (or skip) Phase 1 on a model's initial tableau. -/
def Model.phase1Of (md : Model) : Phase1Out :=
  let T0 := mkTableau md
  if md.na = 0 then Phase1Out.skipped T0
  else Phase1Out.ran (simplexLoop (fuelOf T0) (T0.priceOut md.rawP1 0))

/-- The Phase-1 optimal value (minimum of the sum of artificial variables),
when Phase 1 ran and reached an optimum. -/
def Model.phase1OptValue (md : Model) : Option ℚ :=
  match md.phase1Of with
  | Phase1Out.ran (LoopResult.optimal T1) => some (-T1.objVal)
  | _ => none

/-- Whether Phase 1 was skipped or ended with optimum exactly `0`. -/
def Model.phase1Exact (md : Model) : Bool :=
  match md.phase1Of with
  | Phase1Out.skipped _ => true
  | Phase1Out.ran (LoopResult.optimal T1) => T1.objVal == 0
  | _ => false

/-- Run Phase 2 from a tableau with no artificial columns and report. -/
def Model.phase2From (md : Model) (T : Tableau) : SolverResult :=
  match simplexLoop (fuelOf T) (T.priceOut md.rawP2 0) with
  | LoopResult.optimal T2 => md.mkResult T2
  | LoopResult.unbounded _ => SolverResult.unbounded
  | LoopResult.iterLimit => SolverResult.iterationLimitExceeded

/-- Modelled from the spec: `solve(model)` (§4.3, §6).  Phase 1 drives the
artificial variables to zero; if its optimum exceeds the tolerance the model
is `Infeasible`; otherwise the artificial columns are dropped and Phase 2
optimizes the true objective.  A Phase-1 loop fault is surfaced as the
defensive `IterationLimitExceeded` outcome. -/
def solve (md : Model) : SolverResult :=
  match md.phase1Of with
  | Phase1Out.skipped T0 => md.phase2From T0
  | Phase1Out.ran (LoopResult.optimal T1) =>
    if tol < -T1.objVal then SolverResult.infeasible
    else md.phase2From ((T1.pivotOutAll md.artStart).dropArt md.artStart)
  | Phase1Out.ran (LoopResult.unbounded _) => SolverResult.iterationLimitExceeded
  | Phase1Out.ran LoopResult.iterLimit => SolverResult.iterationLimitExceeded

/-! ## The notebook's model (from the source) -/

/-- `soldiers = pulp.LpVariable('soldiers', lowBound=0, cat='Integer')` as an
expression (source lines 48). -/
def soldiers : LinearExpression := LinearExpression.ofVar "soldiers"

/-- `trains = pulp.LpVariable('trains', lowBound=0, cat='Integer')` as an
expression (source line 49). -/
def trains : LinearExpression := LinearExpression.ofVar "trains"

/-- `raw_material_costs = 10 * soldiers + 9 * trains` (source line 68). -/
def raw_material_costs : LinearExpression := (10 : ℚ) * soldiers + (9 : ℚ) * trains

/-- `variable_costs = 14 * soldiers + 10 * trains` (source line 69). -/
def variable_costs : LinearExpression := (14 : ℚ) * soldiers + (10 : ℚ) * trains

/-- `revenues = 27 * soldiers + 21 * trains` (source line 72). -/
def revenues : LinearExpression := (27 : ℚ) * soldiers + (21 : ℚ) * trains

/-- `profit = revenues - (raw_material_costs + variable_costs)` (source line 75). -/
def profit : LinearExpression := revenues - (raw_material_costs + variable_costs)

/-- `carpentry_hours = soldiers + trains` (source line 95). -/
def carpentry_hours : LinearExpression := soldiers + trains

/-- `finishing_hours = 2*soldiers + trains` (source line 98). -/
def finishing_hours : LinearExpression := (2 : ℚ) * soldiers + trains

/-- The notebook's problem construction, replayed through the builder API:
two integer variables with lower bound 0, the profit objective (maximize),
and the three constraints in notebook order. -/
def probBuild : Except BuildError Model := do
  let b1 ← build_model.add_variable "soldiers" 0 none Domain.integer
  let b2 ← b1.add_variable "trains" 0 none Domain.integer
  let b3 := b2.set_objective profit Sense.maximize
  let b4 ← b3.add_constraint carpentry_hours ConstraintOp.le 80
  let b5 ← b4.add_constraint finishing_hours ConstraintOp.le 100
  let b6 ← b5.add_constraint soldiers ConstraintOp.le 40
  b6.build

/-- The notebook's problem `prob` as an immutable model. -/
def prob : Model :=
  match probBuild with
  | Except.ok md => md
  | Except.error _ => ⟨[], ⟨[], 0⟩, Sense.maximize, []⟩

/-! ## The specification's test models (§8) -/

/-- The infeasibility test model of §8: `x ≤ 1` and `x ≥ 2` with `x ≥ 0`. -/
def infeasibleModel : Model :=
  ⟨[⟨"x", 0, none, Domain.continuous⟩],
   LinearExpression.ofVar "x", Sense.maximize,
   [⟨LinearExpression.ofVar "x", ConstraintOp.le, 1⟩,
    ⟨LinearExpression.ofVar "x", ConstraintOp.ge, 2⟩]⟩

/-- The unboundedness test model of §8: maximize `x` with `x ≥ 0` and no
constraints. -/
def unboundedModel : Model :=
  ⟨[⟨"x", 0, none, Domain.continuous⟩],
   LinearExpression.ofVar "x", Sense.maximize, []⟩

/-- A model with an empty constraint set whose single objective coefficient is
positive but below the tolerance `1e-9`: maximize `(1e-10)·x` with `x ≥ 0`. -/
def tinyCoeffModel : Model :=
  ⟨[⟨"x", 0, none, Domain.continuous⟩],
   LinearExpression.smulQ (1 / 10000000000) (LinearExpression.ofVar "x"),
   Sense.maximize, []⟩

/-- A model exercising the Phase-1 tolerance window: the constraints
`x + 1e-15·y ≥ 1e-10`, `x ≤ 0`, `-y ≤ 0`, `y ≤ 1` are infeasible by the tiny
margin `1e-10 - 1e-15`, which Phase 1 accepts as within its tolerance
`1e-9`. -/
def windowModel : Model :=
  ⟨[⟨"x", 0, none, Domain.continuous⟩, ⟨"y", 0, none, Domain.continuous⟩],
   ⟨[], 0⟩, Sense.maximize,
   [⟨⟨[("x", 1), ("y", 1 / 1000000000000000)], 0⟩, ConstraintOp.ge, 1 / 10000000000⟩,
    ⟨LinearExpression.ofVar "x", ConstraintOp.le, 0⟩,
    ⟨⟨[("y", -1)], 0⟩, ConstraintOp.le, 0⟩,
    ⟨LinearExpression.ofVar "y", ConstraintOp.le, 1⟩]⟩

/-! ## Engine invariants

Predicates used to prove the round-trip (feasibility of reported optima) and
unboundedness properties of the engine: a point satisfying every tableau row,
the basis-and-sign invariants maintained by pivoting, and the objective-row
equation. -/

/-- `x` satisfies every row equation of the tableau. -/
def Tableau.sats (T : Tableau) (x : Nat → ℚ) : Prop := ∀ i < T.m, T.dot i x = T.b i

/-- Every basic column index is in range. -/
def Tableau.basisLt (T : Tableau) : Prop := ∀ i < T.m, T.basis i < T.n

/-- Each basic column is a unit column: `1` in its own row, `0` elsewhere. -/
def Tableau.unitCols (T : Tableau) : Prop :=
  ∀ i < T.m, ∀ i' < T.m, T.A i' (T.basis i) = if i' = i then 1 else 0

/-- All right-hand sides are non-negative. -/
def Tableau.bNonneg (T : Tableau) : Prop := ∀ i < T.m, 0 ≤ T.b i

/-- The reduced cost of every basic column is zero. -/
def Tableau.objZeroOnBasis (T : Tableau) : Prop := ∀ i < T.m, T.obj (T.basis i) = 0

/-- The conjunction of the structural invariants maintained by the engine. -/
def Tableau.Inv (T : Tableau) : Prop :=
  T.basisLt ∧ T.unitCols ∧ T.bNonneg ∧ T.objZeroOnBasis

/-- The objective row is a valid equation for the quantity `z` on the solution
set of the row system: `z x = objVal - Σⱼ obj j · x j`. -/
def Tableau.objEquation (T : Tableau) (z : (Nat → ℚ) → ℚ) : Prop :=
  ∀ x : Nat → ℚ, T.sats x → z x = T.objVal - ∑ j in Finset.range T.n, T.obj j * x j

/-- The sum of the artificial components of a point, in standard-form columns
of a model. -/
def Model.zArt (md : Model) (x : Nat → ℚ) : ℚ :=
  ∑ j in Finset.range md.nCols, md.rawP1 j * x j

/-- Row `i` is zero in every column before `a`. -/
def Tableau.rowZeroBelow (T : Tableau) (a i : Nat) : Prop := ∀ j < a, T.A i j = 0

/-- Every row still basic in a column `≥ a` has zero right-hand side. -/
def Tableau.artBasisZero (T : Tableau) (a : Nat) : Prop :=
  ∀ i < T.m, a ≤ T.basis i → T.b i = 0

/-- After processing rows `0 .. k-1`, each of them is either basic in a
column `< a` or identically zero below column `a`. -/
def Tableau.postPivotOut (T : Tableau) (a k : Nat) : Prop :=
  ∀ i < k, T.basis i < a ∨ T.rowZeroBelow a i

/-! ## Models with an empty constraint set (for the unboundedness claim)

For a model with no constraints, the standard form has one row per variable
with a finite upper bound, and the pivots act on disjoint columns; the state
of the phase-2 loop is described exactly by the set `S` of already-pivoted
rows. -/

/-- Indices of the variables carrying a finite upper bound. -/
def Model.boundVars (md : Model) : List Nat :=
  (List.range md.nv).filter (fun j => ((md.vars.getD j default).upper).isSome)

/-- The variable index of the `i`-th bounded variable. -/
def Model.bv (md : Model) (i : Nat) : Nat := md.boundVars.getD i 0

/-- The (finite) upper bound of variable `j`, defaulting to `0`. -/
def Model.upperOf (md : Model) (j : Nat) : ℚ := ((md.vars.getD j default).upper).getD 0

/-- Rows whose bounded variable has sense-adjusted objective coefficient
beyond the tolerance (the rows the phase-2 loop will pivot). -/
def Model.profSet (md : Model) : Finset ℕ :=
  (Finset.range md.boundVars.length).filter (fun i => tol < md.ctilde (md.bv i))

/-- The phase-2 state of an empty-constraint model after the rows in `S` have
been pivoted: the matrix and right-hand sides never change, the basis of a
pivoted row is its bounded variable, and the reduced costs are zero on pivoted
columns and `-c̃` elsewhere. -/
def IsBoxState (md : Model) (S : Finset ℕ) (T : Tableau) : Prop :=
  T.m = md.boundVars.length ∧
  T.n = md.nv + md.boundVars.length ∧
  (∀ i < T.m, ∀ j < T.n,
    T.A i j = (if j = md.bv i then (1 : ℚ) else 0) + (if j = md.nv + i then 1 else 0)) ∧
  (∀ i < T.m, T.b i = md.upperOf (md.bv i) - md.lowerB (md.bv i)) ∧
  (∀ i < T.m, T.basis i = if i ∈ S then md.bv i else md.nv + i) ∧
  (∀ j < md.nv, T.obj j = if ∃ i ∈ S, md.bv i = j then 0 else -(md.ctilde j)) ∧
  (∀ i < T.m, T.obj (md.nv + i) = if i ∈ S then md.ctilde (md.bv i) else 0) ∧
  (∀ i ∈ S, i < T.m ∧ tol < md.ctilde (md.bv i))

/-- Whether some variable's objective coefficient exceeds the tolerance in the
improving direction while the variable has no upper bound. -/
def Model.unboundedDirection (md : Model) : Bool :=
  (List.range md.nv).any (fun j =>
    (((md.vars.getD j default).upper).isNone) && decide (tol < md.ctilde j))

/-- The bound extremum the engine reaches for variable `j` of an
empty-constraint model: the upper bound when the adjusted coefficient exceeds
the tolerance and the variable is bounded, the lower bound otherwise. -/
def Model.extremeValue (md : Model) (j : Nat) : ℚ :=
  match (md.vars.getD j default).upper with
  | some u => if tol < md.ctilde j then u else md.lowerB j
  | none => md.lowerB j

/-- The reported value list at the bound extremum. -/
def Model.extremeValues (md : Model) : List (String × ℚ) :=
  (List.range md.nv).map (fun j => (md.varName j, md.extremeValue j))

/-- The relaxation tag the reporter computes at the bound extremum. -/
def Model.extremeRelax (md : Model) : Bool :=
  (md.vars.any fun v => v.domain == Domain.integer) &&
  !((List.range md.nv).all (fun j =>
      !((md.vars.getD j default).domain == Domain.integer)
      || isIntegralWithin (md.extremeValue j)))

/-! ## Real-valued satisfaction (for the mathematical claims about the
Giapetto linear program) -/

/-- Exact satisfaction of a constraint at a real assignment. -/
def Constraint.satR (c : Constraint) (σ : String → ℝ) : Prop :=
  match c.op with
  | ConstraintOp.le => ((c.expr.terms.map (fun p => (p.2 : ℝ) * σ p.1)).sum + (c.expr.constant : ℝ)) ≤ (c.rhs : ℝ)
  | ConstraintOp.ge => ((c.rhs : ℝ)) ≤ ((c.expr.terms.map (fun p => (p.2 : ℝ) * σ p.1)).sum + (c.expr.constant : ℝ))
  | ConstraintOp.eq => ((c.expr.terms.map (fun p => (p.2 : ℝ) * σ p.1)).sum + (c.expr.constant : ℝ)) = (c.rhs : ℝ)

/-- The real value of a linear expression at a real assignment, as a relation. -/
def LinearExpression.evalRIs (e : LinearExpression) (σ : String → ℝ) (v : ℝ) : Prop :=
  ((e.terms.map (fun p => (p.2 : ℝ) * σ p.1)).sum + (e.constant : ℝ)) = v

/-- The real assignment sending `soldiers` to `s`, `trains` to `t`. -/
def giapettoAssign (s t : ℝ) : String → ℝ := fun nm =>
  if nm = "soldiers" then s else if nm = "trains" then t else 0

/-- The notebook model's constraint list, computed. -/
theorem prob_constraints_eq :
    prob.constraints =
      [⟨carpentry_hours, ConstraintOp.le, 80⟩,
       ⟨finishing_hours, ConstraintOp.le, 100⟩,
       ⟨soldiers, ConstraintOp.le, 40⟩] := by decide

/-- The notebook model's objective, computed. -/
theorem prob_objective_eq : prob.objective = ⟨[("soldiers", 3), ("trains", 2)], 0⟩ := by decide

/-- Over the reals, any feasible point of the Giapetto model has objective
value at most `180`, with equality only at `(20, 60)`.  Shared backbone for
the optimality and boundedness claims. -/
theorem giapetto_bound (s t v : ℝ)
    (hfeas : ∀ c ∈ prob.constraints, c.satR (giapettoAssign s t))
    (hs : 0 ≤ s) (ht : 0 ≤ t)
    (hv : prob.objective.evalRIs (giapettoAssign s t) v) :
    v ≤ 180 ∧ (v = 180 → s = 20 ∧ t = 60) := by
  rw [prob_constraints_eq] at hfeas
  have h1 := hfeas ⟨carpentry_hours, ConstraintOp.le, 80⟩ (by simp)
  have h2 := hfeas ⟨finishing_hours, ConstraintOp.le, 100⟩ (by simp)
  have e1 : carpentry_hours = ⟨[("soldiers", 1), ("trains", 1)], 0⟩ := by decide
  have e2 : finishing_hours = ⟨[("soldiers", 2), ("trains", 1)], 0⟩ := by decide
  rw [e1] at h1
  rw [e2] at h2
  rw [prob_objective_eq] at hv
  simp [Constraint.satR, LinearExpression.evalRIs, giapettoAssign] at h1 h2 hv
  norm_num at h1 h2 hv
  constructor
  · linarith
  · intro h180
    constructor <;> linarith

/-- C1: Solving the literal Giapetto model returns status `Optimal` with
`soldiers = 20`, `trains = 60`, and objective value `180`. -/
theorem C1_giapetto_solve :
    solve prob = SolverResult.optimal [("soldiers", 20), ("trains", 60)] 180 false := by
  decide

/-- C2: the notebook's profit expression (revenues minus raw-material and
variable costs) normalizes, as a linear expression, to `3*soldiers +
2*trains` with constant term `0`, and the notebook model is exactly the
spec's literal example model. -/
theorem C2_profit_is_literal_objective :
    profit = (3 : ℚ) * soldiers + (2 : ℚ) * trains ∧
    profit.constant = 0 ∧
    prob.objective = profit ∧
    prob.sense = Sense.maximize ∧
    prob.vars = [⟨"soldiers", 0, none, Domain.integer⟩, ⟨"trains", 0, none, Domain.integer⟩] ∧
    prob.constraints =
      [⟨carpentry_hours, ConstraintOp.le, 80⟩,
       ⟨finishing_hours, ConstraintOp.le, 100⟩,
       ⟨soldiers, ConstraintOp.le, 40⟩] := by
  refine ⟨by decide, by decide, by decide, by decide, by decide, by decide⟩

/-- C4: over the reals, every feasible point of the Giapetto model has
objective value at most `180`, and value exactly `180` only at
`(soldiers, trains) = (20, 60)`. -/
theorem C4_unique_optimum (s t v : ℝ)
    (hfeas : ∀ c ∈ prob.constraints, c.satR (giapettoAssign s t))
    (hs : 0 ≤ s) (ht : 0 ≤ t)
    (hv : prob.objective.evalRIs (giapettoAssign s t) v) :
    v ≤ 180 ∧ (v = 180 → s = 20 ∧ t = 60) :=
  giapetto_bound s t v hfeas hs ht hv

/-- Witness for C4 at the optimum `(20, 60)` with value `180`. -/
theorem C4_witness :
    (180 : ℝ) ≤ 180 ∧ ((180 : ℝ) = 180 → (20 : ℝ) = 20 ∧ (60 : ℝ) = 60) := by
  refine C4_unique_optimum 20 60 180 ?_ (by norm_num) (by norm_num) ?_
  · rw [prob_constraints_eq]
    intro c hc
    simp only [List.mem_cons, List.mem_singleton, List.not_mem_nil, or_false] at hc
    have e1 : carpentry_hours = ⟨[("soldiers", 1), ("trains", 1)], 0⟩ := by decide
    have e2 : finishing_hours = ⟨[("soldiers", 2), ("trains", 1)], 0⟩ := by decide
    rcases hc with h | h | h <;> subst h <;>
      simp [Constraint.satR, e1, e2, soldiers, LinearExpression.ofVar, giapettoAssign] <;>
      norm_num
  · rw [prob_objective_eq]
    simp [LinearExpression.evalRIs, giapettoAssign]
    norm_num

/-- C5: the notebook's `assert` of an `Optimal` status is valid: the model is
feasible (the origin satisfies every constraint), its objective is bounded
above by `180` on the feasible region, and the solver's outcome on the
Giapetto model is `Optimal` — neither `Infeasible` nor `Unbounded`. -/
theorem C5_assert_optimal_valid :
    solve prob = SolverResult.optimal [("soldiers", 20), ("trains", 60)] 180 false ∧
    (∀ c ∈ prob.constraints, c.satR (giapettoAssign 0 0)) ∧
    (∀ s t v : ℝ, (∀ c ∈ prob.constraints, c.satR (giapettoAssign s t)) →
       0 ≤ s → 0 ≤ t → prob.objective.evalRIs (giapettoAssign s t) v → v ≤ 180) ∧
    solve prob ≠ SolverResult.infeasible ∧
    solve prob ≠ SolverResult.unbounded := by
  refine ⟨by decide, ?_, ?_, by decide, by decide⟩
  · rw [prob_constraints_eq]
    intro c hc
    simp only [List.mem_cons, List.mem_singleton, List.not_mem_nil, or_false] at hc
    have e1 : carpentry_hours = ⟨[("soldiers", 1), ("trains", 1)], 0⟩ := by decide
    have e2 : finishing_hours = ⟨[("soldiers", 2), ("trains", 1)], 0⟩ := by decide
    rcases hc with h | h | h <;> subst h <;>
      simp [Constraint.satR, e1, e2, soldiers, LinearExpression.ofVar, giapettoAssign] <;>
      norm_num
  · intro s t v hfeas hs ht hv
    exact (giapetto_bound s t v hfeas hs ht hv).1

/-- Witness for C5's universal boundedness clause, instantiated at the
origin. -/
theorem C5_witness : (0 : ℝ) ≤ 180 :=
  C5_assert_optimal_valid.2.2.1 0 0 0 C5_assert_optimal_valid.2.1 le_rfl le_rfl
    (by rw [prob_objective_eq]; simp [LinearExpression.evalRIs, giapettoAssign])

/-- C6: `solve` is a pure, deterministic function of its `Model`: in this
embedding it is a function, so equal models yield identical `SolverResult`s
(same status, same variable-to-value mapping, same objective value). -/
theorem C6_solve_deterministic :
    ∀ md1 md2 : Model, md1 = md2 → solve md1 = solve md2 :=
  fun _ _ h => congrArg solve h

/-- Witness for C6: two calls on the notebook model agree. -/
theorem C6_witness : solve prob = solve prob :=
  C6_solve_deterministic prob prob rfl

/-- C7: the model `x ≤ 1`, `x ≥ 2` (with `x ≥ 0`) solves to `Infeasible`,
and in general whenever Phase 1's optimal value exceeds the tolerance `1e-9`,
the engine terminates with status `Infeasible`. -/
theorem C7_infeasibility :
    solve infeasibleModel = SolverResult.infeasible ∧
    ∀ (md : Model) (v : ℚ), md.phase1OptValue = some v → tol < v →
      solve md = SolverResult.infeasible := by
  refine ⟨by decide, fun md v h hv => ?_⟩
  unfold Model.phase1OptValue at h
  unfold solve
  cases hp : md.phase1Of with
  | skipped T => rw [hp] at h; exact absurd h (by simp)
  | ran r =>
    cases r with
    | optimal T1 =>
      rw [hp] at h
      simp only [Option.some.injEq] at h
      show (if tol < -T1.objVal then SolverResult.infeasible
            else md.phase2From ((T1.pivotOutAll md.artStart).dropArt md.artStart)) =
          SolverResult.infeasible
      rw [if_pos (h ▸ hv)]
    | unbounded T => rw [hp] at h; exact absurd h (by simp)
    | iterLimit => rw [hp] at h; exact absurd h (by simp)

/-- Witness for C7 on the specification's infeasibility test model, whose
Phase-1 optimum is `1`. -/
theorem C7_witness :
    infeasibleModel.phase1OptValue = some 1 ∧ tol < (1 : ℚ) ∧
    solve infeasibleModel = SolverResult.infeasible :=
  ⟨by decide, by decide, C7_infeasibility.2 infeasibleModel 1 (by decide) (by decide)⟩

/-- C9: the model builder fails exactly as specified: `add_variable` rejects a
duplicate name with `DuplicateVariable` and otherwise appends; `add_constraint`
rejects an expression referencing an unknown variable with `UnknownVariable`
and otherwise appends to the ordered constraint sequence; `build` fails with
`EmptyObjective` when no objective is set, with `EmptyModel` when there are no
variables, and otherwise returns the immutable model. -/
theorem C9_builder_contract :
    (∀ (b : ModelBuilder) (nm : String) (lo : ℚ) (up : Option ℚ) (dom : Domain),
       (b.vars.any (fun v => v.name = nm) = true →
          b.add_variable nm lo up dom = Except.error BuildError.duplicateVariable) ∧
       (b.vars.any (fun v => v.name = nm) = false →
          b.add_variable nm lo up dom =
            Except.ok { b with vars := b.vars ++ [⟨nm, lo, up, dom⟩] })) ∧
    (∀ (b : ModelBuilder) (e : LinearExpression) (op : ConstraintOp) (rhs : ℚ),
       (e.terms.all (fun t => b.vars.any (fun v => v.name = t.1)) = false →
          b.add_constraint e op rhs = Except.error BuildError.unknownVariable) ∧
       (e.terms.all (fun t => b.vars.any (fun v => v.name = t.1)) = true →
          b.add_constraint e op rhs =
            Except.ok { b with constraints := b.constraints ++ [⟨e, op, rhs⟩] })) ∧
    (∀ b : ModelBuilder,
       (b.objective = none → b.build = Except.error BuildError.emptyObjective) ∧
       (∀ e s, b.objective = some (e, s) →
         (b.vars = [] → b.build = Except.error BuildError.emptyModel) ∧
         (b.vars ≠ [] → b.build = Except.ok ⟨b.vars, e, s, b.constraints⟩))) := by
  refine ⟨fun b nm lo up dom => ⟨fun h => ?_, fun h => ?_⟩,
          fun b e op rhs => ⟨fun h => ?_, fun h => ?_⟩,
          fun b => ⟨fun h => ?_, fun e s h => ⟨fun hv => ?_, fun hv => ?_⟩⟩⟩
  · simp [ModelBuilder.add_variable, h]
  · simp [ModelBuilder.add_variable, h]
  · simp [ModelBuilder.add_constraint, h]
  · simp [ModelBuilder.add_constraint, h]
  · simp [ModelBuilder.build, h]
  · simp [ModelBuilder.build, h, hv, List.isEmpty]
  · cases hvv : b.vars with
    | nil => exact absurd hvv hv
    | cons a l => simp [ModelBuilder.build, h, hvv, List.isEmpty]

/-- Witness for C9: a duplicate insertion is rejected, and building with no
objective is rejected. -/
theorem C9_witness :
    (ModelBuilder.mk [⟨"x", 0, none, Domain.continuous⟩] none []).add_variable
        "x" 0 none Domain.continuous = Except.error BuildError.duplicateVariable ∧
    (ModelBuilder.mk [] none []).build = Except.error BuildError.emptyObjective :=
  ⟨(C9_builder_contract.1 _ "x" 0 none Domain.continuous).1 (by decide),
   (C9_builder_contract.2.2 _).1 rfl⟩

/-- C10: at the reported optimum `(20, 60)`, the carpentry and finishing
constraints are binding (`20 + 60 = 80`, `2·20 + 60 = 100`) while the demand
constraint is strictly slack (`20 < 40`). -/
theorem C10_binding_and_slack :
    solve prob = SolverResult.optimal [("soldiers", 20), ("trains", 60)] 180 false ∧
    carpentry_hours.eval (assignOf [("soldiers", 20), ("trains", 60)]) = 80 ∧
    finishing_hours.eval (assignOf [("soldiers", 20), ("trains", 60)]) = 100 ∧
    soldiers.eval (assignOf [("soldiers", 20), ("trains", 60)]) = 20 ∧
    soldiers.eval (assignOf [("soldiers", 20), ("trains", 60)]) < 40 := by
  refine ⟨by decide, by decide, by decide, by decide, by decide⟩

/-! ## Pivot lemmas -/

theorem tol_pos : (0 : ℚ) < tol := by norm_num [tol]

theorem tol6_nonneg : (0 : ℚ) ≤ tol6 := by norm_num [tol6]

theorem pivot_m (T : Tableau) (r c : Nat) : (T.pivot r c).m = T.m := rfl

theorem pivot_n (T : Tableau) (r c : Nat) : (T.pivot r c).n = T.n := rfl

theorem pivot_basis_ne (T : Tableau) (r c i : Nat) (h : i ≠ r) :
    (T.pivot r c).basis i = T.basis i := by
  simp [Tableau.pivot, h]

theorem pivot_basis_self (T : Tableau) (r c : Nat) : (T.pivot r c).basis r = c := by
  simp [Tableau.pivot]

theorem pivot_A_self (T : Tableau) (r c j : Nat) :
    (T.pivot r c).A r j = T.A r j / T.A r c := by
  simp [Tableau.pivot]

theorem pivot_A_ne (T : Tableau) (r c i j : Nat) (h : i ≠ r) :
    (T.pivot r c).A i j = T.A i j - T.A i c * (T.A r j / T.A r c) := by
  simp [Tableau.pivot, h]

theorem pivot_b_self (T : Tableau) (r c : Nat) :
    (T.pivot r c).b r = T.b r / T.A r c := by
  simp [Tableau.pivot]

theorem pivot_b_ne (T : Tableau) (r c i : Nat) (h : i ≠ r) :
    (T.pivot r c).b i = T.b i - T.A i c * (T.b r / T.A r c) := by
  simp [Tableau.pivot, h]

theorem pivot_obj (T : Tableau) (r c j : Nat) :
    (T.pivot r c).obj j = T.obj j - T.obj c * (T.A r j / T.A r c) := by
  simp [Tableau.pivot]

theorem pivot_dot_self (T : Tableau) (r c : Nat) (x : Nat → ℚ) :
    (T.pivot r c).dot r x = T.dot r x / T.A r c := by
  unfold Tableau.dot
  rw [pivot_n, Finset.sum_div]
  refine Finset.sum_congr rfl (fun j _ => ?_)
  rw [pivot_A_self]
  ring

theorem pivot_dot_ne (T : Tableau) (r c : Nat) (x : Nat → ℚ) (i : Nat) (h : i ≠ r) :
    (T.pivot r c).dot i x = T.dot i x - T.A i c * (T.dot r x / T.A r c) := by
  unfold Tableau.dot
  rw [pivot_n]
  have h1 : ∀ j ∈ Finset.range T.n, (T.pivot r c).A i j * x j
      = T.A i j * x j - T.A i c * (T.A r j * x j) / T.A r c := by
    intro j _
    rw [pivot_A_ne _ _ _ _ _ h]
    ring
  rw [Finset.sum_congr rfl h1, Finset.sum_sub_distrib]
  congr 1
  rw [← mul_div_assoc, Finset.mul_sum, Finset.sum_div]

theorem sats_pivot_iff (T : Tableau) (r c : Nat) (hr : r < T.m) (hp : T.A r c ≠ 0)
    (x : Nat → ℚ) : (T.pivot r c).sats x ↔ T.sats x := by
  constructor
  · intro h i hi
    have hr0 : T.dot r x = T.b r := by
      have hrr := h r (by rw [pivot_m]; exact hr)
      rw [pivot_dot_self, pivot_b_self] at hrr
      field_simp at hrr
      exact hrr
    by_cases hir : i = r
    · subst hir; exact hr0
    · have hh := h i (by rw [pivot_m]; exact hi)
      rw [pivot_dot_ne _ _ _ _ _ hir, pivot_b_ne _ _ _ _ hir, hr0] at hh
      linarith
  · intro h i hi
    rw [pivot_m] at hi
    by_cases hir : i = r
    · rw [hir, pivot_dot_self, pivot_b_self, h r hr]
    · rw [pivot_dot_ne _ _ _ _ _ hir, pivot_b_ne _ _ _ _ hir, h i hi, h r hr]

/-! ## Basis and invariant preservation -/

theorem basis_inj (T : Tableau) (hU : T.unitCols) {i i' : Nat} (hi : i < T.m)
    (hi' : i' < T.m) (h : T.basis i = T.basis i') : i = i' := by
  by_contra hne
  have h1 := hU i hi i hi
  have h2 := hU i' hi' i hi
  rw [← h, h1] at h2
  simp [hne] at h2

theorem pivot_basisLt (T : Tableau) (r c : Nat) (hc : c < T.n) (hbl : T.basisLt) :
    (T.pivot r c).basisLt := by
  intro i hi
  rw [pivot_m] at hi
  rw [pivot_n]
  by_cases hir : i = r
  · rw [hir, pivot_basis_self]; exact hc
  · rw [pivot_basis_ne _ _ _ _ hir]; exact hbl i hi

theorem pivot_unitCols (T : Tableau) (r c : Nat) (hr : r < T.m) (hU : T.unitCols)
    (hp : T.A r c ≠ 0) (hnb : ∀ i < T.m, T.basis i ≠ c) :
    (T.pivot r c).unitCols := by
  intro i hi i' hi'
  rw [pivot_m] at hi hi'
  by_cases hir : i = r
  · subst hir
    rw [pivot_basis_self]
    by_cases hir' : i' = i
    · rw [hir', pivot_A_self, div_self hp, if_pos rfl]
    · rw [pivot_A_ne _ _ _ _ _ hir', div_self hp, if_neg hir']
      ring
  · rw [pivot_basis_ne _ _ _ _ hir]
    have hArj : T.A r (T.basis i) = 0 := by
      rw [hU i hi r hr, if_neg (fun hh => hir hh.symm)]
    by_cases hir' : i' = r
    · subst hir'
      rw [pivot_A_self, hArj, zero_div, if_neg (fun hh => hir hh.symm)]
    · rw [pivot_A_ne _ _ _ _ _ hir', hArj, zero_div, mul_zero, sub_zero]
      exact hU i hi i' hi'

theorem pivot_bNonneg_ratio (T : Tableau) (r c : Nat) (hr : r < T.m) (hb : T.bNonneg)
    (hpos : 0 < T.A r c)
    (hmin : ∀ i < T.m, 0 < T.A i c → T.b r / T.A r c ≤ T.b i / T.A i c) :
    (T.pivot r c).bNonneg := by
  intro i hi
  rw [pivot_m] at hi
  by_cases hir : i = r
  · rw [hir, pivot_b_self]
    exact div_nonneg (hb r hr) hpos.le
  · rw [pivot_b_ne _ _ _ _ hir]
    by_cases hc : 0 < T.A i c
    · have h1 := (div_le_div_iff hpos hc).mp (hmin i hi hc)
      have h2 : T.A i c * (T.b r / T.A r c) ≤ T.b i := by
        rw [mul_div_assoc']
        rw [div_le_iff hpos]
        nlinarith
      linarith
    · push_neg at hc
      have h3 : T.A i c * (T.b r / T.A r c) ≤ 0 :=
        mul_nonpos_of_nonpos_of_nonneg hc (div_nonneg (hb r hr) hpos.le)
      linarith [hb i hi]

theorem pivot_b_of_zero (T : Tableau) (r c : Nat) (hbr : T.b r = 0) (i : Nat) :
    (T.pivot r c).b i = T.b i := by
  by_cases hir : i = r
  · rw [hir, pivot_b_self, hbr, zero_div]
  · rw [pivot_b_ne _ _ _ _ hir, hbr]
    simp

theorem pivot_objZero (T : Tableau) (r c : Nat) (hr : r < T.m) (hU : T.unitCols)
    (hz : T.objZeroOnBasis) (hp : T.A r c ≠ 0) : (T.pivot r c).objZeroOnBasis := by
  intro i hi
  rw [pivot_m] at hi
  by_cases hir : i = r
  · rw [hir, pivot_basis_self, pivot_obj, div_self hp]
    ring
  · rw [pivot_basis_ne _ _ _ _ hir, pivot_obj]
    have hArj : T.A r (T.basis i) = 0 := by
      rw [hU i hi r hr, if_neg (fun hh => hir hh.symm)]
    rw [hArj, hz i hi, zero_div, mul_zero, sub_zero]

theorem pivot_objEquation (T : Tableau) (r c : Nat) (hr : r < T.m) (hp : T.A r c ≠ 0)
    (z : (Nat → ℚ) → ℚ) (he : T.objEquation z) : (T.pivot r c).objEquation z := by
  intro x hx
  have hx' : T.sats x := (sats_pivot_iff T r c hr hp x).mp hx
  have hdotr : T.dot r x = T.b r := hx' r hr
  rw [he x hx']
  show _ = T.objVal - T.obj c * (T.b r / T.A r c)
      - ∑ j in Finset.range (T.pivot r c).n, (T.pivot r c).obj j * x j
  rw [pivot_n]
  have h1 : ∀ j ∈ Finset.range T.n, (T.pivot r c).obj j * x j
      = T.obj j * x j - T.obj c * (T.A r j * x j) / T.A r c := by
    intro j _
    rw [pivot_obj]
    ring
  rw [Finset.sum_congr rfl h1, Finset.sum_sub_distrib]
  have h2 : ∑ j in Finset.range T.n, T.obj c * (T.A r j * x j) / T.A r c
      = T.obj c * (T.b r / T.A r c) := by
    rw [← hdotr]
    unfold Tableau.dot
    rw [← mul_div_assoc, Finset.mul_sum, Finset.sum_div]
  rw [h2]
  ring

/-! ## Pricing out -/

theorem priceOut_sats (T : Tableau) (raw : Nat → ℚ) (rawVal : ℚ) (x : Nat → ℚ) :
    (T.priceOut raw rawVal).sats x ↔ T.sats x := Iff.rfl

theorem priceOut_objZero (T : Tableau) (raw : Nat → ℚ) (rawVal : ℚ)
    (hU : T.unitCols) : (T.priceOut raw rawVal).objZeroOnBasis := by
  intro k hk
  show raw (T.basis k) - ∑ i in Finset.range T.m, raw (T.basis i) * T.A i (T.basis k) = 0
  have h1 : ∀ i ∈ Finset.range T.m, raw (T.basis i) * T.A i (T.basis k)
      = if i = k then raw (T.basis k) else 0 := by
    intro i hi
    rw [Finset.mem_range] at hi
    rw [hU k hk i hi]
    by_cases h : i = k <;> simp [h]
  have hk' : k < T.m := hk
  rw [Finset.sum_congr rfl h1, Finset.sum_ite_eq' (Finset.range T.m) k
    (fun _ => raw (T.basis k)), if_pos (Finset.mem_range.mpr hk'), sub_self]

theorem priceOut_objEquation (T : Tableau) (raw : Nat → ℚ) (rawVal : ℚ)
    (z : (Nat → ℚ) → ℚ)
    (hraw : ∀ x, z x = rawVal - ∑ j in Finset.range T.n, raw j * x j) :
    (T.priceOut raw rawVal).objEquation z := by
  intro x hx
  have hx' : T.sats x := hx
  show z x = (rawVal - ∑ i in Finset.range T.m, raw (T.basis i) * T.b i)
      - ∑ j in Finset.range T.n,
          (raw j - ∑ i in Finset.range T.m, raw (T.basis i) * T.A i j) * x j
  rw [hraw x]
  have h1 : ∀ j ∈ Finset.range T.n,
      (raw j - ∑ i in Finset.range T.m, raw (T.basis i) * T.A i j) * x j
      = raw j * x j - ∑ i in Finset.range T.m, raw (T.basis i) * (T.A i j * x j) := by
    intro j _
    rw [sub_mul, Finset.sum_mul]
    congr 1
    exact Finset.sum_congr rfl (fun i _ => by ring)
  rw [Finset.sum_congr rfl h1, Finset.sum_sub_distrib, Finset.sum_comm]
  have h2 : ∀ i ∈ Finset.range T.m,
      (∑ j in Finset.range T.n, raw (T.basis i) * (T.A i j * x j))
      = raw (T.basis i) * T.b i := by
    intro i hi
    rw [Finset.mem_range] at hi
    rw [← Finset.mul_sum]
    have h3 := hx' i hi
    unfold Tableau.dot at h3
    rw [h3]
  rw [Finset.sum_congr rfl h2]
  ring

/-! ## Specifications of the entering and leaving scans -/

theorem pickEnter_some (T : Tableau) :
    ∀ k e, pickEnter T k = some e → e < k ∧ T.obj e < -tol := by
  intro k
  induction k with
  | zero => intro e h; exact absurd h (by simp [pickEnter])
  | succ j ih =>
    intro e h
    simp only [pickEnter] at h
    by_cases hj : T.obj j < -tol
    · rw [if_pos hj] at h
      cases hp : pickEnter T j with
      | none =>
        rw [hp] at h
        simp only [Option.some.injEq] at h
        subst h
        exact ⟨Nat.lt_succ_self _, hj⟩
      | some e' =>
        rw [hp] at h
        dsimp only at h
        by_cases hlt : T.obj j < T.obj e'
        · rw [if_pos hlt] at h
          simp only [Option.some.injEq] at h
          subst h
          exact ⟨Nat.lt_succ_self _, hj⟩
        · rw [if_neg hlt] at h
          simp only [Option.some.injEq] at h
          obtain ⟨h1, h2⟩ := ih e' hp
          rw [← h]
          exact ⟨Nat.lt_succ_of_lt h1, h2⟩
    · rw [if_neg hj] at h
      obtain ⟨h1, h2⟩ := ih e h
      exact ⟨Nat.lt_succ_of_lt h1, h2⟩

theorem pickEnter_none (T : Tableau) :
    ∀ k, pickEnter T k = none → ∀ j < k, ¬(T.obj j < -tol) := by
  intro k
  induction k with
  | zero => intro _ j hj; omega
  | succ i ih =>
    intro h j hj
    simp only [pickEnter] at h
    by_cases hi : T.obj i < -tol
    · rw [if_pos hi] at h
      cases hp : pickEnter T i with
      | none => rw [hp] at h; simp at h
      | some e' =>
        rw [hp] at h
        by_cases hlt : T.obj i < T.obj e' <;> simp [hlt] at h
    · rw [if_neg hi] at h
      rcases Nat.lt_succ_iff_lt_or_eq.mp hj with hj' | hj'
      · exact ih h j hj'
      · subst hj'; exact hi

theorem pickLeave_none (T : Tableau) (e : Nat) :
    ∀ k, pickLeave T e k = none → ∀ i < k, ¬(0 < T.A i e) := by
  intro k
  induction k with
  | zero => intro _ i hi; omega
  | succ i2 ih =>
    intro h i hi
    simp only [pickLeave] at h
    by_cases hA : 0 < T.A i2 e
    · rw [if_pos hA] at h
      cases hp : pickLeave T e i2 with
      | none => rw [hp] at h; simp at h
      | some r' =>
        rw [hp] at h
        by_cases h1 : T.b i2 / T.A i2 e < T.b r' / T.A r' e
        · simp [h1] at h
        · by_cases h2 : T.b i2 / T.A i2 e = T.b r' / T.A r' e ∧ T.basis i2 < T.basis r'
            <;> simp [h1, h2] at h
    · rw [if_neg hA] at h
      rcases Nat.lt_succ_iff_lt_or_eq.mp hi with hi' | hi'
      · exact ih h i hi'
      · subst hi'; exact hA

theorem pickLeave_some (T : Tableau) (e : Nat) :
    ∀ k r, pickLeave T e k = some r →
      r < k ∧ 0 < T.A r e ∧ ∀ i < k, 0 < T.A i e → T.b r / T.A r e ≤ T.b i / T.A i e := by
  intro k
  induction k with
  | zero => intro r h; exact absurd h (by simp [pickLeave])
  | succ i2 ih =>
    intro r h
    simp only [pickLeave] at h
    by_cases hA : 0 < T.A i2 e
    · rw [if_pos hA] at h
      cases hp : pickLeave T e i2 with
      | none =>
        rw [hp] at h
        simp only [Option.some.injEq] at h
        subst h
        refine ⟨Nat.lt_succ_self _, hA, fun i' hi' hA' => ?_⟩
        rcases Nat.lt_succ_iff_lt_or_eq.mp hi' with h' | h'
        · exact absurd hA' (pickLeave_none T e i2 hp i' h')
        · subst h'; exact le_refl _
      | some r' =>
        rw [hp] at h
        dsimp only at h
        obtain ⟨hr'lt, hA', hmin'⟩ := ih r' hp
        by_cases h1 : T.b i2 / T.A i2 e < T.b r' / T.A r' e
        · rw [if_pos h1] at h
          simp only [Option.some.injEq] at h
          subst h
          refine ⟨Nat.lt_succ_self _, hA, fun i' hi' hAi' => ?_⟩
          rcases Nat.lt_succ_iff_lt_or_eq.mp hi' with h' | h'
          · exact le_trans h1.le (hmin' i' h' hAi')
          · subst h'; exact le_refl _
        · rw [if_neg h1] at h
          by_cases h2 : T.b i2 / T.A i2 e = T.b r' / T.A r' e ∧ T.basis i2 < T.basis r'
          · rw [if_pos h2] at h
            simp only [Option.some.injEq] at h
            subst h
            refine ⟨Nat.lt_succ_self _, hA, fun i' hi' hAi' => ?_⟩
            rcases Nat.lt_succ_iff_lt_or_eq.mp hi' with h' | h'
            · exact h2.1.le.trans (hmin' i' h' hAi')
            · subst h'; exact le_refl _
          · rw [if_neg h2] at h
            simp only [Option.some.injEq] at h
            subst h
            refine ⟨Nat.lt_succ_of_lt hr'lt, hA', fun i' hi' hAi' => ?_⟩
            rcases Nat.lt_succ_iff_lt_or_eq.mp hi' with h' | h'
            · exact hmin' i' h' hAi'
            · subst h'; exact le_of_not_lt h1
    · rw [if_neg hA] at h
      obtain ⟨hlt, hAr, hmin⟩ := ih r h
      refine ⟨Nat.lt_succ_of_lt hlt, hAr, fun i' hi' hAi' => ?_⟩
      rcases Nat.lt_succ_iff_lt_or_eq.mp hi' with h' | h'
      · exact hmin i' h' hAi'
      · subst h'; exact absurd hAi' hA

theorem enter_not_basic (T : Tableau) (hz : T.objZeroOnBasis) (e : Nat)
    (he : T.obj e < -tol) : ∀ i < T.m, T.basis i ≠ e := by
  intro i hi hbe
  have h0 := hz i hi
  rw [hbe] at h0
  rw [h0] at he
  have := tol_pos
  linarith

/-! ## The basic solution -/

theorem basicSol_basic (T : Tableau) (hU : T.unitCols) {i : Nat} (hi : i < T.m) :
    T.basicSol (T.basis i) = T.b i := by
  unfold Tableau.basicSol
  cases hf : (List.range T.m).find? (fun i' => T.basis i' == T.basis i) with
  | none =>
    have h0 := List.find?_eq_none.mp hf i (List.mem_range.mpr hi)
    simp at h0
  | some i' =>
    have h1 := List.find?_some hf
    have h2 := List.mem_range.mp (List.mem_of_find?_eq_some hf)
    have h3 : T.basis i' = T.basis i := by simpa using h1
    rw [basis_inj T hU h2 hi h3]

theorem basicSol_nonbasic (T : Tableau) {j : Nat} (h : ∀ i < T.m, T.basis i ≠ j) :
    T.basicSol j = 0 := by
  unfold Tableau.basicSol
  cases hf : (List.range T.m).find? (fun i' => T.basis i' == j) with
  | none => rfl
  | some i' =>
    have h1 := List.find?_some hf
    have h2 := List.mem_range.mp (List.mem_of_find?_eq_some hf)
    simp only [beq_iff_eq] at h1
    exact absurd h1 (h i' h2)

theorem basicSol_nonneg (T : Tableau) (hb : T.bNonneg) (j : Nat) : 0 ≤ T.basicSol j := by
  unfold Tableau.basicSol
  cases hf : (List.range T.m).find? (fun i' => T.basis i' == j) with
  | none => exact le_refl 0
  | some i' =>
    have h2 := List.mem_range.mp (List.mem_of_find?_eq_some hf)
    exact hb i' h2

theorem sats_basicSol (T : Tableau) (hbl : T.basisLt) (hU : T.unitCols) :
    T.sats T.basicSol := by
  intro i hi
  unfold Tableau.dot
  have hsub : (Finset.range T.m).image T.basis ⊆ Finset.range T.n := by
    intro j hj
    rw [Finset.mem_image] at hj
    obtain ⟨i', hi', rfl⟩ := hj
    exact Finset.mem_range.mpr (hbl i' (Finset.mem_range.mp hi'))
  rw [← Finset.sum_sdiff hsub]
  have hzero : ∀ j ∈ Finset.range T.n \ (Finset.range T.m).image T.basis,
      T.A i j * T.basicSol j = 0 := by
    intro j hj
    rw [Finset.mem_sdiff] at hj
    have hnb : ∀ i' < T.m, T.basis i' ≠ j := by
      intro i' hi' hne
      exact hj.2 (Finset.mem_image.mpr ⟨i', Finset.mem_range.mpr hi', hne⟩)
    rw [basicSol_nonbasic T hnb, mul_zero]
  rw [Finset.sum_eq_zero hzero, zero_add]
  rw [Finset.sum_image (fun i1 h1 i2 h2 h =>
    basis_inj T hU (Finset.mem_range.mp h1) (Finset.mem_range.mp h2) h)]
  have h1 : ∀ i' ∈ Finset.range T.m,
      T.A i (T.basis i') * T.basicSol (T.basis i') = if i' = i then T.b i else 0 := by
    intro i' hi'
    rw [Finset.mem_range] at hi'
    rw [basicSol_basic T hU hi', hU i' hi' i hi]
    by_cases h : i = i'
    · subst h; simp
    · rw [if_neg h, if_neg (fun hh => h hh.symm), zero_mul]
  rw [Finset.sum_congr rfl h1,
    Finset.sum_ite_eq' (Finset.range T.m) i (fun _ => T.b i),
    if_pos (Finset.mem_range.mpr hi)]

/-! ## The loop preserves the invariants -/

theorem simplexLoop_optimal (fuel : Nat) : ∀ (T T' : Tableau),
    T.Inv → simplexLoop fuel T = LoopResult.optimal T' →
    T'.Inv ∧ T'.m = T.m ∧ T'.n = T.n ∧ (∀ x, (T'.sats x ↔ T.sats x))
    ∧ (∀ z, T.objEquation z → T'.objEquation z) := by
  induction fuel with
  | zero => intro T T' _ h; exact absurd h (by simp [simplexLoop])
  | succ f ih =>
    intro T T' hInv h
    simp only [simplexLoop] at h
    cases he : T.chooseEnter with
    | none =>
      rw [he] at h
      simp only [LoopResult.optimal.injEq] at h
      subst h
      exact ⟨hInv, rfl, rfl, fun _ => Iff.rfl, fun _ hz => hz⟩
    | some e =>
      rw [he] at h
      dsimp only at h
      cases hl : T.chooseLeave e with
      | none => rw [hl] at h; simp at h
      | some r =>
        rw [hl] at h
        dsimp only at h
        obtain ⟨hrm, hA, hmin⟩ := pickLeave_some T e T.m r hl
        obtain ⟨hen, hobj⟩ := pickEnter_some T T.n e he
        have hp : T.A r e ≠ 0 := ne_of_gt hA
        have hnb := enter_not_basic T hInv.2.2.2 e hobj
        obtain ⟨hbl, hU, hb, hz⟩ := hInv
        have hInv' : (T.pivot r e).Inv :=
          ⟨pivot_basisLt T r e hen hbl,
           pivot_unitCols T r e hrm hU hp hnb,
           pivot_bNonneg_ratio T r e hrm hb hA hmin,
           pivot_objZero T r e hrm hU hz hp⟩
        obtain ⟨hI, hm, hn, hsat, hoe⟩ := ih (T.pivot r e) T' hInv' h
        refine ⟨hI, hm, hn, fun x => (hsat x).trans (sats_pivot_iff T r e hrm hp x),
          fun z hze => hoe z (pivot_objEquation T r e hrm hp z hze)⟩

/-! ## Properties of the standard-form construction -/

theorem toSRow_rhs_nonneg (r : PreRow) : 0 ≤ r.toSRow.rhs := by
  unfold PreRow.toSRow
  by_cases h : r.rhs < 0
  · rw [if_pos h]; dsimp; linarith
  · rw [if_neg h]; dsimp; linarith [not_lt.mp h]

theorem toSRow_slack_of_not_art (r : PreRow) (h : r.toSRow.art = false) :
    r.toSRow.slack = 1 := by
  unfold PreRow.toSRow at h ⊢
  by_cases hneg : r.rhs < 0
  · rw [if_pos hneg] at h; simp at h
  · rw [if_neg hneg] at h ⊢
    dsimp at h ⊢
    unfold PreRow.isLe at h
    unfold PreRow.slackCoeff
    cases hop : r.op <;> simp_all

theorem srows_length (md : Model) : md.srows.length = md.preRows.length := by
  unfold Model.srows
  rw [List.length_map]

theorem srowAt_lt (md : Model) {i : Nat} (hi : i < md.mRows) :
    md.srowAt i = (md.preRows.getD i default).toSRow := by
  unfold Model.mRows at hi
  have hi2 : i < md.preRows.length := by rw [← srows_length md]; exact hi
  unfold Model.srowAt Model.srows
  rw [List.getD_eq_getElem _ _ (by rw [List.length_map]; exact hi2),
    List.getElem_map, List.getD_eq_getElem _ _ hi2]

theorem srowAt_rhs_nonneg (md : Model) {i : Nat} (hi : i < md.mRows) :
    0 ≤ (md.srowAt i).rhs := by
  rw [srowAt_lt md hi]
  exact toSRow_rhs_nonneg _

theorem srowAt_slack (md : Model) {i : Nat} (hi : i < md.mRows)
    (h : (md.srowAt i).art = false) : (md.srowAt i).slack = 1 := by
  rw [srowAt_lt md hi] at h ⊢
  exact toSRow_slack_of_not_art _ h

theorem srowAt_default_not_art (md : Model) {i : Nat} (hi : ¬ i < md.mRows) :
    (md.srowAt i).art = false := by
  unfold Model.srowAt
  rw [List.getD_eq_default]
  · rfl
  · unfold Model.mRows at hi; omega

theorem artIdx_succ (md : Model) (i : Nat) (hi : i < md.mRows) :
    md.artIdx (i + 1) = md.artIdx i + (if (md.srowAt i).art then 1 else 0) := by
  unfold Model.artIdx Model.srowAt
  unfold Model.mRows at hi
  rw [List.take_succ, List.filter_append, List.length_append]
  congr 1
  rw [List.getElem?_eq_getElem hi]
  rw [List.getD_eq_getElem _ _ hi]
  by_cases h : (md.srows[i]).art
  · simp [h, Option.toList, List.filter]
  · simp only [Bool.not_eq_true] at h
    simp [h, Option.toList, List.filter]

theorem artIdx_mono (md : Model) : ∀ i', i' ≤ md.mRows → ∀ i, i ≤ i' →
    md.artIdx i ≤ md.artIdx i' := by
  intro i'
  induction i' with
  | zero =>
    intro _ i hi
    have h0 : i = 0 := Nat.le_zero.mp hi
    rw [h0]
  | succ k ih =>
    intro hub i hi
    by_cases h : i = k + 1
    · rw [h]
    · have hik : i ≤ k := by omega
      have h1 := ih (by omega) i hik
      have h2 := artIdx_succ md k (by omega)
      by_cases ha : (md.srowAt k).art
      · rw [ha] at h2; simp at h2; omega
      · simp only [Bool.not_eq_true] at ha
        rw [ha] at h2; simp at h2; omega

theorem artIdx_strict (md : Model) {i i' : Nat} (hii' : i < i') (hi' : i' ≤ md.mRows)
    (ha : (md.srowAt i).art = true) : md.artIdx i < md.artIdx i' := by
  have h1 := artIdx_succ md i (by omega)
  rw [ha] at h1
  simp at h1
  have h2 := artIdx_mono md i' hi' (i + 1) (by omega)
  omega

theorem artIdx_lt_na (md : Model) {i : Nat} (hi : i < md.mRows)
    (ha : (md.srowAt i).art = true) : md.artIdx i < md.na := by
  have hna : md.na = md.artIdx md.mRows := by
    unfold Model.na Model.artIdx Model.mRows
    rw [List.take_length]
  rw [hna]
  exact artIdx_strict md hi (le_refl _) ha

/-! ## Invariants of the initial tableau -/

theorem mkT_m (md : Model) : (mkTableau md).m = md.mRows := rfl

theorem mkT_n (md : Model) : (mkTableau md).n = md.nCols := rfl

theorem mkT_b (md : Model) (i : Nat) : (mkTableau md).b i = (md.srowAt i).rhs := rfl

theorem mkT_basis (md : Model) (i : Nat) :
    (mkTableau md).basis i =
      if (md.srowAt i).art then md.artStart + md.artIdx i else md.nv + i := rfl

theorem mkT_A (md : Model) (i j : Nat) :
    (mkTableau md).A i j =
      (if j < md.nv then (md.srowAt i).coef j else 0)
      + (if j = md.nv + i then (md.srowAt i).slack else 0)
      + (if (md.srowAt i).art = true ∧ j = md.artStart + md.artIdx i then 1 else 0) := rfl

theorem mkT_bNonneg (md : Model) : (mkTableau md).bNonneg := by
  intro i hi
  rw [mkT_b]
  exact srowAt_rhs_nonneg md hi

theorem mkT_basisLt (md : Model) : (mkTableau md).basisLt := by
  intro i hi
  have hi' : i < md.mRows := hi
  rw [mkT_basis, mkT_n]
  by_cases h : (md.srowAt i).art
  · rw [if_pos h]
    have := artIdx_lt_na md hi' h
    unfold Model.nCols Model.artStart
    omega
  · rw [if_neg h]
    unfold Model.nCols
    omega

theorem mkT_unitCols (md : Model) : (mkTableau md).unitCols := by
  intro i hi i' hi'
  have hi1 : i < md.mRows := hi
  have hi1' : i' < md.mRows := hi'
  rw [mkT_basis, mkT_A]
  by_cases ha : (md.srowAt i).art
  · rw [if_pos ha]
    have h1 : ¬ (md.artStart + md.artIdx i < md.nv) := by
      unfold Model.artStart
      omega
    rw [if_neg h1]
    have h2 : ¬ (md.artStart + md.artIdx i = md.nv + i') := by
      unfold Model.artStart
      omega
    rw [if_neg h2]
    by_cases hii : i' = i
    · rw [hii, if_pos ⟨ha, rfl⟩, if_pos rfl]
      norm_num
    · have hcond : ¬ ((md.srowAt i').art = true
          ∧ md.artStart + md.artIdx i = md.artStart + md.artIdx i') := by
        rintro ⟨ha', heq⟩
        have heq2 : md.artIdx i = md.artIdx i' := by omega
        rcases Nat.lt_trichotomy i i' with h | h | h
        · have := artIdx_strict md h (le_of_lt hi1') ha
          omega
        · exact hii h.symm
        · have := artIdx_strict md h (le_of_lt hi1) ha'
          omega
      rw [if_neg hcond, if_neg hii]
      norm_num
  · rw [if_neg ha]
    have h1 : ¬ (md.nv + i < md.nv) := by omega
    rw [if_neg h1]
    have h3 : ¬ ((md.srowAt i').art = true ∧ md.nv + i = md.artStart + md.artIdx i') := by
      rintro ⟨_, heq⟩
      unfold Model.artStart at heq
      omega
    rw [if_neg h3]
    by_cases hii : i' = i
    · rw [hii, if_pos rfl, if_pos rfl]
      rw [srowAt_slack md hi1 (by simpa using ha)]
      norm_num
    · have h4 : ¬ (md.nv + i = md.nv + i') := by omega
      rw [if_neg h4, if_neg hii]
      norm_num

/-! ## Phase-1 value and artificial variables -/

theorem zArt_objEquation_init (md : Model) :
    ((mkTableau md).priceOut md.rawP1 0).objEquation (fun x => -(md.zArt x)) := by
  apply priceOut_objEquation
  intro x
  unfold Model.zArt
  rw [mkT_n]
  ring

theorem obj_dot_basicSol_zero (T : Tableau) (hU : T.unitCols) (hz : T.objZeroOnBasis) :
    ∑ j in Finset.range T.n, T.obj j * T.basicSol j = 0 := by
  refine Finset.sum_eq_zero (fun j hj => ?_)
  by_cases hb : ∃ i, i < T.m ∧ T.basis i = j
  · obtain ⟨i, hi, hbi⟩ := hb
    rw [← hbi, hz i hi, zero_mul]
  · push_neg at hb
    rw [basicSol_nonbasic T (fun i hi => hb i hi), mul_zero]

theorem zArt_basicSol (md : Model) (T1 : Tableau)
    (hoe : T1.objEquation (fun x => -(md.zArt x))) (hInv : T1.Inv) :
    md.zArt T1.basicSol = -T1.objVal := by
  obtain ⟨hbl, hU, hb, hz⟩ := hInv
  have hs := sats_basicSol T1 hbl hU
  have h1 := hoe T1.basicSol hs
  rw [obj_dot_basicSol_zero T1 hU hz] at h1
  dsimp at h1
  linarith

theorem artBasisZero_of_exact (md : Model) (T1 : Tableau)
    (hoe : T1.objEquation (fun x => -(md.zArt x)))
    (hInv : T1.Inv) (hn : T1.n = md.nCols) (hval : T1.objVal = 0) :
    T1.artBasisZero md.artStart := by
  intro i hi hge
  obtain ⟨hbl, hU, hb, hz⟩ := hInv
  have hsum : md.zArt T1.basicSol = 0 := by
    rw [zArt_basicSol md T1 hoe ⟨hbl, hU, hb, hz⟩, hval, neg_zero]
  have hterm : ∀ j ∈ Finset.range md.nCols, 0 ≤ md.rawP1 j * T1.basicSol j := by
    intro j _
    unfold Model.rawP1
    by_cases h : md.artStart ≤ j
    · rw [if_pos h, one_mul]
      exact basicSol_nonneg T1 hb j
    · rw [if_neg h, zero_mul]
  have hall := (Finset.sum_eq_zero_iff_of_nonneg hterm).mp hsum
  have hji : T1.basis i ∈ Finset.range md.nCols :=
    Finset.mem_range.mpr (hn ▸ hbl i hi)
  have h0 := hall (T1.basis i) hji
  unfold Model.rawP1 at h0
  rw [if_pos hge, one_mul] at h0
  rw [← basicSol_basic T1 hU hi]
  exact h0

/-! ## Driving artificial variables out of the basis -/

theorem find?_nonzero_spec (T : Tableau) (a i c : Nat)
    (h : (List.range a).find? (fun j => decide (T.A i j ≠ 0)) = some c) :
    c < a ∧ T.A i c ≠ 0 := by
  have h1 := List.find?_some h
  have h2 := List.mem_range.mp (List.mem_of_find?_eq_some h)
  simp at h1
  exact ⟨h2, h1⟩

theorem find?_nonzero_none (T : Tableau) (a i : Nat)
    (h : (List.range a).find? (fun j => decide (T.A i j ≠ 0)) = none) :
    ∀ j < a, T.A i j = 0 := by
  intro j hj
  have h1 := List.find?_eq_none.mp h j (List.mem_range.mpr hj)
  simpa using h1

theorem pivotOutUpTo_inv (T0 : Tableau) (a : Nat) (ha : a ≤ T0.n)
    (h0 : T0.basisLt ∧ T0.unitCols ∧ T0.bNonneg ∧ T0.artBasisZero a) :
    ∀ k, k ≤ T0.m →
      (pivotOutUpTo T0 a k).m = T0.m ∧
      (pivotOutUpTo T0 a k).n = T0.n ∧
      (pivotOutUpTo T0 a k).basisLt ∧
      (pivotOutUpTo T0 a k).unitCols ∧
      (pivotOutUpTo T0 a k).bNonneg ∧
      (∀ x, (pivotOutUpTo T0 a k).sats x ↔ T0.sats x) ∧
      (pivotOutUpTo T0 a k).artBasisZero a ∧
      (pivotOutUpTo T0 a k).postPivotOut a k := by
  intro k
  induction k with
  | zero =>
    intro _
    exact ⟨rfl, rfl, h0.1, h0.2.1, h0.2.2.1, fun _ => Iff.rfl, h0.2.2.2,
      fun i hi => absurd hi (by omega)⟩
  | succ k ih =>
    intro hk
    obtain ⟨hm, hn, hbl, hU, hb, hsats, hz, hpost⟩ := ih (by omega)
    simp only [pivotOutUpTo]
    set T := pivotOutUpTo T0 a k with hT
    unfold Tableau.pivotOutStep
    by_cases hcase : a ≤ T.basis k
    · rw [if_pos hcase]
      cases hf : (List.range a).find? (fun j => decide (T.A k j ≠ 0)) with
      | none =>
        dsimp only
        refine ⟨hm, hn, hbl, hU, hb, hsats, hz, fun i hi => ?_⟩
        by_cases hik : i = k
        · right
          rw [hik]
          exact fun j hj => find?_nonzero_none T a k hf j hj
        · exact hpost i (by omega)
      | some c =>
        dsimp only
        obtain ⟨hca, hAc⟩ := find?_nonzero_spec T a k c hf
        have hkm : k < T.m := by rw [hm]; omega
        have hcn : c < T.n := by rw [hn]; omega
        have hbk : T.b k = 0 := hz k hkm hcase
        have hnb : ∀ i < T.m, T.basis i ≠ c := by
          intro i hi hbc
          by_cases hik : i = k
          · rw [hik] at hbc
            omega
          · have h1 := hU i hi k hkm
            rw [hbc, if_neg (fun hh => hik hh.symm)] at h1
            exact hAc h1
        refine ⟨hm ▸ pivot_m T k c, hn ▸ pivot_n T k c,
          pivot_basisLt T k c hcn hbl,
          pivot_unitCols T k c hkm hU hAc hnb,
          ?_, ?_, ?_, ?_⟩
        · intro i hi
          rw [pivot_b_of_zero T k c hbk]
          exact hb i hi
        · intro x
          exact (sats_pivot_iff T k c hkm hAc x).trans (hsats x)
        · intro i hi hge
          rw [pivot_m] at hi
          rw [pivot_b_of_zero T k c hbk]
          by_cases hik : i = k
          · rw [hik, pivot_basis_self] at hge
            omega
          · rw [pivot_basis_ne _ _ _ _ hik] at hge
            exact hz i hi hge
        · intro i hi
          by_cases hik : i = k
          · left
            rw [hik, pivot_basis_self]
            omega
          · rcases hpost i (by omega) with hl | hr
            · left
              rw [pivot_basis_ne _ _ _ _ hik]
              exact hl
            · right
              intro j hj
              rw [pivot_A_ne _ _ _ _ _ hik, hr c hca, zero_mul, sub_zero]
              exact hr j hj
    · rw [if_neg hcase]
      refine ⟨hm, hn, hbl, hU, hb, hsats, hz, fun i hi => ?_⟩
      by_cases hik : i = k
      · left
        rw [hik]
        omega
      · exact hpost i (by omega)

/-! ## Dropping the artificial columns -/

theorem keepRows_spec (T : Tableau) (a : Nat) {i2 : Nat}
    (hi2 : i2 < (T.keepRows a).length) :
    (T.keepRows a).getD i2 0 < T.m ∧ T.basis ((T.keepRows a).getD i2 0) < a := by
  rw [List.getD_eq_getElem _ _ hi2]
  have hmem : (T.keepRows a)[i2] ∈ T.keepRows a := List.getElem_mem hi2
  unfold Tableau.keepRows at hmem
  rw [List.mem_filter] at hmem
  obtain ⟨hr, hlt⟩ := hmem
  exact ⟨List.mem_range.mp hr, by simpa using hlt⟩

theorem keepRows_nodup (T : Tableau) (a : Nat) : (T.keepRows a).Nodup :=
  (List.nodup_range _).filter _

theorem keepRows_inj (T : Tableau) (a : Nat) {i2 i2' : Nat}
    (h2 : i2 < (T.keepRows a).length) (h2' : i2' < (T.keepRows a).length)
    (he : (T.keepRows a).getD i2 0 = (T.keepRows a).getD i2' 0) : i2 = i2' := by
  rw [List.getD_eq_getElem _ _ h2, List.getD_eq_getElem _ _ h2'] at he
  exact (List.Nodup.getElem_inj_iff (keepRows_nodup T a)).mp he

theorem dropArt_m (T : Tableau) (a : Nat) : (T.dropArt a).m = (T.keepRows a).length := rfl

theorem dropArt_n (T : Tableau) (a : Nat) : (T.dropArt a).n = a := rfl

theorem dropArt_basisLt (T : Tableau) (a : Nat) : (T.dropArt a).basisLt := by
  intro i2 hi2
  exact (keepRows_spec T a hi2).2

theorem dropArt_unitCols (T : Tableau) (a : Nat) (hU : T.unitCols) :
    (T.dropArt a).unitCols := by
  intro i2 hi2 i2' hi2'
  have h1 := keepRows_spec T a hi2
  have h1' := keepRows_spec T a hi2'
  show T.A ((T.keepRows a).getD i2' 0) (T.basis ((T.keepRows a).getD i2 0)) = _
  rw [hU _ h1.1 _ h1'.1]
  by_cases h : i2' = i2
  · rw [if_pos (by rw [h]), if_pos h]
  · rw [if_neg (fun hh => h (keepRows_inj T a hi2' hi2 hh)), if_neg h]

theorem dropArt_bNonneg (T : Tableau) (a : Nat) (hb : T.bNonneg) :
    (T.dropArt a).bNonneg := by
  intro i2 hi2
  exact hb _ (keepRows_spec T a hi2).1

theorem dot_restrict (T : Tableau) (a : Nat) (ha : a ≤ T.n) (i : Nat) (x : Nat → ℚ)
    (hx0 : ∀ j, a ≤ j → x j = 0) :
    T.dot i x = ∑ j in Finset.range a, T.A i j * x j := by
  unfold Tableau.dot
  rw [← Finset.sum_range_add_sum_Ico _ ha]
  have h2 : ∑ j in Finset.Ico a T.n, T.A i j * x j = 0 := by
    refine Finset.sum_eq_zero (fun j hj => ?_)
    rw [hx0 j (Finset.mem_Ico.mp hj).1, mul_zero]
  rw [h2, add_zero]

theorem dropArt_dot (T : Tableau) (a : Nat) (i2 : Nat) (x : Nat → ℚ) :
    (T.dropArt a).dot i2 x
      = ∑ j in Finset.range a, T.A ((T.keepRows a).getD i2 0) j * x j := rfl

theorem dropArt_sats_transfer (T : Tableau) (a : Nat) (ha : a ≤ T.n)
    (hpost : T.postPivotOut a T.m) (hz : T.artBasisZero a)
    (x : Nat → ℚ) (hx0 : ∀ j, a ≤ j → x j = 0)
    (hsat : (T.dropArt a).sats x) : T.sats x := by
  intro i hi
  by_cases hki : T.basis i < a
  · have hmem : i ∈ T.keepRows a := by
      unfold Tableau.keepRows
      rw [List.mem_filter]
      exact ⟨List.mem_range.mpr hi, by simpa using hki⟩
    obtain ⟨i2, hlt, hget⟩ := List.mem_iff_getElem.mp hmem
    have hd := hsat i2 (show i2 < (T.dropArt a).m by rw [dropArt_m]; exact hlt)
    rw [dropArt_dot] at hd
    rw [List.getD_eq_getElem _ _ hlt, hget] at hd
    have hbeq : (T.dropArt a).b i2 = T.b i := by
      show T.b ((T.keepRows a).getD i2 0) = T.b i
      rw [List.getD_eq_getElem _ _ hlt, hget]
    rw [hbeq] at hd
    rw [dot_restrict T a ha i x hx0]
    exact hd
  · push_neg at hki
    have hb0 : T.b i = 0 := hz i hi hki
    rcases hpost i hi with hl | hr
    · omega
    · rw [dot_restrict T a ha i x hx0, hb0]
      refine Finset.sum_eq_zero (fun j hj => ?_)
      rw [hr j (Finset.mem_range.mp hj), zero_mul]

/-! ## From tableau equations back to the model's constraints -/

theorem mkT_row_eq (md : Model) (x : Nat → ℚ) (i : Nat) (hi : i < md.mRows)
    (hart0 : ∀ j, md.artStart ≤ j → x j = 0)
    (hrow : (mkTableau md).dot i x = (mkTableau md).b i) :
    (∑ j in Finset.range md.nv, (md.srowAt i).coef j * x j)
      + (md.srowAt i).slack * x (md.nv + i) = (md.srowAt i).rhs := by
  unfold Tableau.dot at hrow
  rw [mkT_n, mkT_b] at hrow
  have hsplit : ∀ j ∈ Finset.range md.nCols, (mkTableau md).A i j * x j
      = (if j < md.nv then (md.srowAt i).coef j * x j else 0)
        + (if j = md.nv + i then (md.srowAt i).slack * x j else 0)
        + (if (md.srowAt i).art = true ∧ j = md.artStart + md.artIdx i then x j else 0) := by
    intro j _
    rw [mkT_A]
    by_cases h1 : j < md.nv
    · have h2 : ¬ (j = md.nv + i) := by omega
      have h3 : ¬ ((md.srowAt i).art = true ∧ j = md.artStart + md.artIdx i) := by
        rintro ⟨_, hh⟩
        unfold Model.artStart at hh
        omega
      rw [if_pos h1, if_neg h2, if_neg h3, if_pos h1, if_neg h2, if_neg h3]
      ring
    · by_cases h2 : j = md.nv + i
      · have h3 : ¬ ((md.srowAt i).art = true ∧ j = md.artStart + md.artIdx i) := by
          rintro ⟨_, hh⟩
          rw [h2] at hh
          unfold Model.artStart at hh
          omega
        rw [if_neg h1, if_pos h2, if_neg h3, if_neg h1, if_pos h2, if_neg h3]
        ring
      · by_cases h3 : (md.srowAt i).art = true ∧ j = md.artStart + md.artIdx i
        · rw [if_neg h1, if_neg h2, if_pos h3, if_neg h1, if_neg h2, if_pos h3]
          ring
        · rw [if_neg h1, if_neg h2, if_neg h3, if_neg h1, if_neg h2, if_neg h3]
          ring
  rw [Finset.sum_congr rfl hsplit, Finset.sum_add_distrib, Finset.sum_add_distrib] at hrow
  have hS3 : ∑ j in Finset.range md.nCols,
      (if (md.srowAt i).art = true ∧ j = md.artStart + md.artIdx i then x j else 0) = 0 := by
    refine Finset.sum_eq_zero (fun j _ => ?_)
    by_cases h : (md.srowAt i).art = true ∧ j = md.artStart + md.artIdx i
    · rw [if_pos h, h.2]
      exact hart0 _ (by omega)
    · rw [if_neg h]
  have hS2 : ∑ j in Finset.range md.nCols,
      (if j = md.nv + i then (md.srowAt i).slack * x j else 0)
      = (md.srowAt i).slack * x (md.nv + i) := by
    rw [Finset.sum_ite_eq' (Finset.range md.nCols) (md.nv + i)
      (fun j => (md.srowAt i).slack * x j)]
    rw [if_pos (Finset.mem_range.mpr (by unfold Model.nCols; omega))]
  have hS1 : ∑ j in Finset.range md.nCols,
      (if j < md.nv then (md.srowAt i).coef j * x j else 0)
      = ∑ j in Finset.range md.nv, (md.srowAt i).coef j * x j := by
    rw [← Finset.sum_subset
      (Finset.range_subset.mpr (show md.nv ≤ md.nCols by unfold Model.nCols; omega))
      (fun j _ hj => if_neg (fun hlt => hj (Finset.mem_range.mpr hlt)))]
    exact Finset.sum_congr rfl (fun j hj => if_pos (Finset.mem_range.mp hj))
  rw [hS1, hS2, hS3, add_zero] at hrow
  exact hrow

theorem constraints_le_mRows (md : Model) : md.constraints.length ≤ md.mRows := by
  unfold Model.mRows
  rw [srows_length]
  unfold Model.preRows
  rw [List.length_append, List.length_map]
  omega

theorem preRows_constraint (md : Model) {k : Nat} (hk : k < md.constraints.length) :
    md.preRows.getD k default =
      { coef := fun j => if j < md.nv
          then (md.constraints.getD k default).expr.coeff (md.varName j) else 0
        op := (md.constraints.getD k default).op
        rhs := (md.constraints.getD k default).rhs
          - (md.constraints.getD k default).expr.constant
          - ∑ j in Finset.range md.nv,
              (md.constraints.getD k default).expr.coeff (md.varName j) * md.lowerB j } := by
  unfold Model.preRows
  rw [List.getD_append _ _ _ _ (by rw [List.length_map]; exact hk)]
  rw [List.getD_eq_getElem _ _ (by rw [List.length_map]; exact hk), List.getElem_map,
    ← List.getD_eq_getElem _ _ hk]

theorem constraint_row_ineq (md : Model) (x : Nat → ℚ)
    (hsat : (mkTableau md).sats x)
    (hart0 : ∀ j, md.artStart ≤ j → x j = 0)
    (hnn : ∀ j, 0 ≤ x j)
    {k : Nat} (hk : k < md.constraints.length) :
    (((md.constraints.getD k default).op = ConstraintOp.le →
        ∑ j in Finset.range md.nv,
            (md.constraints.getD k default).expr.coeff (md.varName j) * x j
          ≤ (md.constraints.getD k default).rhs
            - (md.constraints.getD k default).expr.constant
            - ∑ j in Finset.range md.nv,
                (md.constraints.getD k default).expr.coeff (md.varName j) * md.lowerB j)
    ∧ ((md.constraints.getD k default).op = ConstraintOp.ge →
        (md.constraints.getD k default).rhs
            - (md.constraints.getD k default).expr.constant
            - ∑ j in Finset.range md.nv,
                (md.constraints.getD k default).expr.coeff (md.varName j) * md.lowerB j
          ≤ ∑ j in Finset.range md.nv,
              (md.constraints.getD k default).expr.coeff (md.varName j) * x j)
    ∧ ((md.constraints.getD k default).op = ConstraintOp.eq →
        ∑ j in Finset.range md.nv,
            (md.constraints.getD k default).expr.coeff (md.varName j) * x j
          = (md.constraints.getD k default).rhs
            - (md.constraints.getD k default).expr.constant
            - ∑ j in Finset.range md.nv,
                (md.constraints.getD k default).expr.coeff (md.varName j) * md.lowerB j)) := by
  have hkm : k < md.mRows := lt_of_lt_of_le hk (constraints_le_mRows md)
  have hrow := mkT_row_eq md x k hkm hart0 (hsat k hkm)
  rw [srowAt_lt md hkm, preRows_constraint md hk] at hrow
  unfold PreRow.toSRow PreRow.slackCoeff at hrow
  set c := md.constraints.getD k default with hc
  set rr : ℚ := c.rhs - c.expr.constant
    - ∑ j in Finset.range md.nv, c.expr.coeff (md.varName j) * md.lowerB j with hrr
  set s : ℚ := ∑ j in Finset.range md.nv, c.expr.coeff (md.varName j) * x j with hs
  have hxs := hnn (md.nv + k)
  have hE : s + (match c.op with
      | ConstraintOp.le => (1 : ℚ)
      | ConstraintOp.ge => -1
      | ConstraintOp.eq => 0) * x (md.nv + k) = rr := by
    by_cases hflip : rr < 0
    · rw [if_pos hflip] at hrow
      dsimp only at hrow
      have h1 : ∑ j in Finset.range md.nv,
          -(if j < md.nv then c.expr.coeff (md.varName j) else 0) * x j = -s := by
        rw [hs, ← Finset.sum_neg_distrib]
        refine Finset.sum_congr rfl (fun j hj => ?_)
        rw [if_pos (Finset.mem_range.mp hj)]
        ring
      rw [h1] at hrow
      linarith
    · rw [if_neg hflip] at hrow
      dsimp only at hrow
      have h1 : ∑ j in Finset.range md.nv,
          (if j < md.nv then c.expr.coeff (md.varName j) else 0) * x j = s := by
        rw [hs]
        refine Finset.sum_congr rfl (fun j hj => ?_)
        rw [if_pos (Finset.mem_range.mp hj)]
      rw [h1] at hrow
      exact hrow
  refine ⟨fun hop => ?_, fun hop => ?_, fun hop => ?_⟩ <;> rw [hop] at hE <;>
    dsimp only at hE <;> linarith

/-! ## Evaluating expressions at reported value lists -/

theorem assignOf_eq_of_mem (l : List Nat) (vn : Nat → String) (w : Nat → ℚ)
    (nm : String) (j0 : Nat) (hj0 : j0 ∈ l) (hname : vn j0 = nm)
    (huniq : ∀ j ∈ l, vn j = nm → j = j0) :
    assignOf (l.map (fun j => (vn j, w j))) nm = w j0 := by
  induction l with
  | nil => cases hj0
  | cons a t ih =>
    unfold assignOf
    rw [List.map_cons]
    by_cases ha : vn a = nm
    · rw [List.find?_cons_of_pos _ (by simp [ha])]
      dsimp only
      rw [huniq a (List.mem_cons_self a t) ha]
    · rw [List.find?_cons_of_neg _ (by simp [ha])]
      have hj0t : j0 ∈ t := by
        rcases List.mem_cons.mp hj0 with h | h
        · exact absurd (h ▸ hname) ha
        · exact h
      exact ih hj0t (fun j hj hv => huniq j (List.mem_cons_of_mem _ hj) hv)

theorem assignOf_eq_zero_of_not_mem (l : List Nat) (vn : Nat → String) (w : Nat → ℚ)
    (nm : String) (h : ∀ j ∈ l, vn j ≠ nm) :
    assignOf (l.map (fun j => (vn j, w j))) nm = 0 := by
  induction l with
  | nil => rfl
  | cons a t ih =>
    unfold assignOf
    rw [List.map_cons,
      List.find?_cons_of_neg _ (by simp [h a (List.mem_cons_self a t)])]
    exact ih (fun j hj => h j (List.mem_cons_of_mem _ hj))

theorem varName_inj (md : Model) (hnd : (md.vars.map VarDecl.name).Nodup)
    {j j' : Nat} (hj : j < md.nv) (hj' : j' < md.nv)
    (h : md.varName j = md.varName j') : j = j' := by
  unfold Model.varName Model.nv at *
  rw [List.getD_eq_getElem _ _ hj, List.getD_eq_getElem _ _ hj'] at h
  have hlj : j < (md.vars.map VarDecl.name).length := by rw [List.length_map]; exact hj
  have hlj' : j' < (md.vars.map VarDecl.name).length := by
    rw [List.length_map]; exact hj'
  have hh : (md.vars.map VarDecl.name)[j] = (md.vars.map VarDecl.name)[j'] := by
    rw [List.getElem_map, List.getElem_map]
    exact h
  exact (List.Nodup.getElem_inj_iff hnd).mp hh

theorem terms_sum_expand (md : Model) (hnd : (md.vars.map VarDecl.name).Nodup)
    (w : Nat → ℚ) :
    ∀ L : List (String × ℚ),
      ((L.map (fun t =>
          t.2 * assignOf ((List.range md.nv).map (fun j => (md.varName j, w j))) t.1)).sum)
      = ∑ j in Finset.range md.nv,
          (((L.filter (fun t => t.1 = md.varName j)).map (fun t => t.2)).sum) * w j := by
  intro L
  induction L with
  | nil => simp
  | cons t L ih =>
    rw [List.map_cons, List.sum_cons, ih]
    by_cases hmem : ∃ j0, j0 < md.nv ∧ md.varName j0 = t.1
    · obtain ⟨j0, hj0, hname⟩ := hmem
      have hσ : assignOf ((List.range md.nv).map (fun j => (md.varName j, w j))) t.1
          = w j0 :=
        assignOf_eq_of_mem (List.range md.nv) _ w t.1 j0 (List.mem_range.mpr hj0) hname
          (fun j hj hv =>
            varName_inj md hnd (List.mem_range.mp hj) hj0 (hv.trans hname.symm))
      rw [hσ]
      have hfil : ∀ j ∈ Finset.range md.nv,
          (((t :: L).filter (fun t' => t'.1 = md.varName j)).map (fun t' => t'.2)).sum * w j
          = (if md.varName j = t.1 then t.2 * w j else 0)
            + ((L.filter (fun t' => t'.1 = md.varName j)).map (fun t' => t'.2)).sum * w j := by
        intro j _
        by_cases h : t.1 = md.varName j
        · rw [List.filter_cons_of_pos (by simp [h]), List.map_cons, List.sum_cons,
            if_pos h.symm]
          ring
        · rw [List.filter_cons_of_neg (by simp [h]), if_neg (fun hh => h hh.symm),
            zero_add]
      rw [Finset.sum_congr rfl hfil, Finset.sum_add_distrib]
      have hone : ∑ j in Finset.range md.nv,
          (if md.varName j = t.1 then t.2 * w j else 0) = t.2 * w j0 := by
        rw [Finset.sum_eq_single j0]
        · rw [if_pos hname]
        · intro j hj hne
          rw [if_neg (fun hv =>
            hne (varName_inj md hnd (Finset.mem_range.mp hj) hj0 (hv.trans hname.symm)))]
        · intro habs
          exact absurd (Finset.mem_range.mpr hj0) habs
      rw [hone]
    · push_neg at hmem
      have hσ : assignOf ((List.range md.nv).map (fun j => (md.varName j, w j))) t.1
          = 0 :=
        assignOf_eq_zero_of_not_mem (List.range md.nv) _ w t.1
          (fun j hj hv => hmem j (List.mem_range.mp hj) hv)
      rw [hσ, mul_zero, zero_add]
      refine Finset.sum_congr rfl (fun j hj => ?_)
      congr 2
      rw [List.filter_cons_of_neg
        (by simp; exact fun hv => hmem j (Finset.mem_range.mp hj) hv.symm)]

theorem eval_assignOf (md : Model) (hnd : (md.vars.map VarDecl.name).Nodup)
    (e : LinearExpression) (w : Nat → ℚ) :
    e.eval (assignOf ((List.range md.nv).map (fun j => (md.varName j, w j))))
    = (∑ j in Finset.range md.nv, e.coeff (md.varName j) * w j) + e.constant := by
  unfold LinearExpression.eval LinearExpression.coeff
  rw [terms_sum_expand md hnd w e.terms]

theorem constraints_satisfied_exact (md : Model)
    (hnd : (md.vars.map VarDecl.name).Nodup)
    (x : Nat → ℚ) (hsat : (mkTableau md).sats x)
    (hart0 : ∀ j, md.artStart ≤ j → x j = 0) (hnn : ∀ j, 0 ≤ x j) :
    ∀ c ∈ md.constraints,
      c.satisfiedWithin
        (assignOf ((List.range md.nv).map (fun j => (md.varName j, x j + md.lowerB j))))
        tol6 := by
  intro c hcmem
  obtain ⟨k, hk, hck⟩ := List.mem_iff_getElem.mp hcmem
  have hcg : md.constraints.getD k default = c := by
    rw [List.getD_eq_getElem _ _ hk]
    exact hck
  have H := constraint_row_ineq md x hsat hart0 hnn hk
  rw [hcg] at H
  have heval := eval_assignOf md hnd c.expr (fun j => x j + md.lowerB j)
  have hsplitsum : ∑ j in Finset.range md.nv,
        c.expr.coeff (md.varName j) * (x j + md.lowerB j)
      = (∑ j in Finset.range md.nv, c.expr.coeff (md.varName j) * x j)
        + ∑ j in Finset.range md.nv, c.expr.coeff (md.varName j) * md.lowerB j := by
    rw [← Finset.sum_add_distrib]
    exact Finset.sum_congr rfl (fun j _ => by ring)
  have ht6 := tol6_nonneg
  unfold Constraint.satisfiedWithin
  cases hop : c.op
  · have h1 := H.1 hop
    rw [heval, hsplitsum]
    linarith
  · have h1 := H.2.2 hop
    have h2 : c.expr.eval
        (assignOf ((List.range md.nv).map (fun j => (md.varName j, x j + md.lowerB j))))
        - c.rhs = 0 := by
      rw [heval, hsplitsum]
      linarith
    rw [h2, abs_zero]
    exact ht6
  · have h1 := H.2.1 hop
    rw [heval, hsplitsum]
    linarith

theorem mkResult_eq (md : Model) (T2 : Tableau) :
    md.mkResult T2 = SolverResult.optimal
      ((List.range md.nv).map (fun j => (md.varName j, T2.basicSol j + md.lowerB j)))
      (md.objective.eval (assignOf
        ((List.range md.nv).map (fun j => (md.varName j, T2.basicSol j + md.lowerB j)))))
      ((md.vars.any fun v => v.domain == Domain.integer) &&
        !((List.range md.nv).all (fun j =>
          !((md.vars.getD j default).domain == Domain.integer)
          || isIntegralWithin (T2.basicSol j + md.lowerB j)))) := rfl

theorem phase1Of_skipped (md : Model) (T0 : Tableau)
    (h : md.phase1Of = Phase1Out.skipped T0) : T0 = mkTableau md ∧ md.na = 0 := by
  unfold Model.phase1Of at h
  by_cases hna : md.na = 0
  · rw [if_pos hna] at h
    simp only [Phase1Out.skipped.injEq] at h
    exact ⟨h.symm, hna⟩
  · rw [if_neg hna] at h
    simp at h

theorem phase1Of_ran (md : Model) (r : LoopResult)
    (h : md.phase1Of = Phase1Out.ran r) :
    md.na ≠ 0
    ∧ simplexLoop (fuelOf (mkTableau md)) ((mkTableau md).priceOut md.rawP1 0) = r := by
  unfold Model.phase1Of at h
  by_cases hna : md.na = 0
  · rw [if_pos hna] at h
    simp at h
  · rw [if_neg hna] at h
    simp only [Phase1Out.ran.injEq] at h
    exact ⟨hna, h⟩

theorem phase2From_sound (md : Model) (T : Tableau)
    (hnd : (md.vars.map VarDecl.name).Nodup)
    (hbl : T.basisLt) (hU : T.unitCols) (hb : T.bNonneg)
    (hnT : T.n = md.artStart)
    (htrans : ∀ x, T.sats x → (∀ j, md.artStart ≤ j → x j = 0) → (mkTableau md).sats x)
    (values : List (String × ℚ)) (objv : ℚ) (rlx : Bool)
    (hsolve : md.phase2From T = SolverResult.optimal values objv rlx) :
    (∀ c ∈ md.constraints, c.satisfiedWithin (assignOf values) tol6)
    ∧ objv = md.objective.eval (assignOf values) := by
  unfold Model.phase2From at hsolve
  cases hloop : simplexLoop (fuelOf T) (T.priceOut md.rawP2 0) with
  | optimal T2 =>
    rw [hloop] at hsolve
    dsimp only at hsolve
    rw [mkResult_eq] at hsolve
    have hInvP : (T.priceOut md.rawP2 0).Inv :=
      ⟨hbl, hU, hb, priceOut_objZero T md.rawP2 0 hU⟩
    obtain ⟨hInv2, hm2, hn2, hsats2, _⟩ := simplexLoop_optimal _ _ _ hInvP hloop
    obtain ⟨hbl2, hU2, hb2, hz2⟩ := hInv2
    have hx0 : ∀ j, md.artStart ≤ j → T2.basicSol j = 0 := by
      intro j hj
      refine basicSol_nonbasic T2 (fun i hi hbe => ?_)
      have hlt := hbl2 i hi
      rw [hbe, hn2] at hlt
      have hlt2 : j < T.n := hlt
      rw [hnT] at hlt2
      omega
    have hsat0 : (mkTableau md).sats T2.basicSol := by
      apply htrans
      · exact (hsats2 T2.basicSol).mp (sats_basicSol T2 hbl2 hU2)
      · exact hx0
    have hnn : ∀ j, 0 ≤ T2.basicSol j := basicSol_nonneg T2 hb2
    have hcons := constraints_satisfied_exact md hnd T2.basicSol hsat0 hx0 hnn
    simp only [SolverResult.optimal.injEq] at hsolve
    obtain ⟨hvals, hobjv, _⟩ := hsolve
    constructor
    · rw [← hvals]
      exact hcons
    · rw [← hvals, ← hobjv]
  | unbounded T2 =>
    rw [hloop] at hsolve
    dsimp only at hsolve
    exact absurd hsolve (by simp)
  | iterLimit =>
    rw [hloop] at hsolve
    dsimp only at hsolve
    exact absurd hsolve (by simp)

theorem solve_optimal_sound (md : Model) (values : List (String × ℚ)) (objv : ℚ)
    (rlx : Bool) (hnd : (md.vars.map VarDecl.name).Nodup)
    (hex : md.phase1Exact = true)
    (hsolve : solve md = SolverResult.optimal values objv rlx) :
    (∀ c ∈ md.constraints, c.satisfiedWithin (assignOf values) tol6)
    ∧ objv = md.objective.eval (assignOf values) := by
  unfold solve at hsolve
  cases hp : md.phase1Of with
  | skipped T0 =>
    rw [hp] at hsolve
    dsimp only at hsolve
    obtain ⟨hT0, hna0⟩ := phase1Of_skipped md T0 hp
    subst hT0
    refine phase2From_sound md (mkTableau md) hnd (mkT_basisLt md) (mkT_unitCols md)
      (mkT_bNonneg md) ?_ ?_ values objv rlx hsolve
    · rw [mkT_n]
      unfold Model.nCols Model.artStart
      omega
    · intro x hx _
      exact hx
  | ran r =>
    cases r with
    | optimal T1 =>
      rw [hp] at hsolve
      dsimp only at hsolve
      have hval0 : T1.objVal = 0 := by
        unfold Model.phase1Exact at hex
        rw [hp] at hex
        dsimp only at hex
        simpa using hex
      rw [hval0] at hsolve
      rw [if_neg (by rw [neg_zero]; exact not_lt.mpr tol_pos.le)] at hsolve
      obtain ⟨hna, hloop1⟩ := phase1Of_ran md _ hp
      have hInvP1 : ((mkTableau md).priceOut md.rawP1 0).Inv :=
        ⟨mkT_basisLt md, mkT_unitCols md, mkT_bNonneg md,
          priceOut_objZero _ _ _ (mkT_unitCols md)⟩
      obtain ⟨hInv1, hm1, hn1, hsats1, hoe1⟩ := simplexLoop_optimal _ _ _ hInvP1 hloop1
      have hoeT1 : T1.objEquation (fun x => -(md.zArt x)) :=
        hoe1 _ (zArt_objEquation_init md)
      have hn1' : T1.n = md.nCols := hn1
      have hz1 : T1.artBasisZero md.artStart :=
        artBasisZero_of_exact md T1 hoeT1 hInv1 hn1' hval0
      obtain ⟨hbl1, hU1, hb1, hzb1⟩ := hInv1
      have haLe : md.artStart ≤ T1.n := by
        rw [hn1']
        unfold Model.nCols Model.artStart
        omega
      obtain ⟨hmS, hnS, hblS, hUS, hbS, hsatsS, hzS, hpostS⟩ :=
        pivotOutUpTo_inv T1 md.artStart haLe ⟨hbl1, hU1, hb1, hz1⟩ T1.m (le_refl _)
      refine phase2From_sound md ((T1.pivotOutAll md.artStart).dropArt md.artStart) hnd
        (dropArt_basisLt _ _) (dropArt_unitCols _ _ hUS) (dropArt_bNonneg _ _ hbS)
        (dropArt_n _ _) ?_ values objv rlx hsolve
      intro x hxD hx0
      have haLeS : md.artStart ≤ (T1.pivotOutAll md.artStart).n := by
        have he : (T1.pivotOutAll md.artStart).n = T1.n := hnS
        rw [he]
        exact haLe
      have hpostS' : (T1.pivotOutAll md.artStart).postPivotOut md.artStart
          (T1.pivotOutAll md.artStart).m := by
        have he : (T1.pivotOutAll md.artStart).m = T1.m := hmS
        rw [he]
        exact hpostS
      have hsatTS : (T1.pivotOutAll md.artStart).sats x :=
        dropArt_sats_transfer _ md.artStart haLeS hpostS' hzS x hx0 hxD
      have hsatT1 : T1.sats x := (hsatsS x).mp hsatTS
      exact (hsats1 x).mp hsatT1
    | unbounded T =>
      rw [hp] at hsolve
      dsimp only at hsolve
      exact absurd hsolve (by simp)
    | iterLimit =>
      rw [hp] at hsolve
      dsimp only at hsolve
      exact absurd hsolve (by simp)

/-- C3, counterexample to the claim as stated: on `windowModel` (whose
Phase-1 optimum `1e-10` is accepted as within the tolerance `1e-9`), `solve`
returns `Optimal` with `y = 100000`, yet the model's fourth constraint
`y ≤ 1` is violated far beyond the tolerance `1e-6`. -/
theorem C3_counterexample :
    solve windowModel = SolverResult.optimal [("x", 0), ("y", 100000)] 0 false ∧
    (windowModel.constraints.getD 3 default) ∈ windowModel.constraints ∧
    ¬ (windowModel.constraints.getD 3 default).satisfiedWithin
        (assignOf [("x", 0), ("y", 100000)]) tol6 := by
  refine ⟨by decide, by decide, by decide⟩

/-- C3 (amended): for every solve call on a model with distinct variable
names that returns status `Optimal` and whose Phase 1 was skipped or ended
with optimum exactly `0`, substituting the returned values back into each
constraint's `LinearExpression` satisfies that constraint within tolerance
`1e-6` (indeed exactly), and substituting them into the objective reproduces
the reported objective value within `1e-6`; in particular `(20, 60)`
satisfies all three Giapetto constraints and yields objective `180`. -/
theorem C3_roundtrip (md : Model) (values : List (String × ℚ))
    (objv : ℚ) (rlx : Bool)
    (hnd : (md.vars.map VarDecl.name).Nodup)
    (hex : md.phase1Exact = true)
    (hsolve : solve md = SolverResult.optimal values objv rlx) :
    (∀ c ∈ md.constraints, c.satisfiedWithin (assignOf values) tol6)
    ∧ |md.objective.eval (assignOf values) - objv| ≤ tol6
    ∧ (∀ c ∈ prob.constraints,
        c.satisfiedWithin (assignOf [("soldiers", 20), ("trains", 60)]) tol6)
    ∧ prob.objective.eval (assignOf [("soldiers", 20), ("trains", 60)]) = 180 := by
  obtain ⟨h1, h2⟩ := solve_optimal_sound md values objv rlx hnd hex hsolve
  refine ⟨h1, ?_, by decide, by decide⟩
  rw [h2, sub_self, abs_zero]
  exact tol6_nonneg

/-- Witness for C3 on the Giapetto model itself. -/
theorem C3_witness :
    (∀ c ∈ prob.constraints,
      c.satisfiedWithin (assignOf [("soldiers", 20), ("trains", 60)]) tol6)
    ∧ |prob.objective.eval (assignOf [("soldiers", 20), ("trains", 60)]) - 180| ≤ tol6 :=
  ⟨(C3_roundtrip prob [("soldiers", 20), ("trains", 60)] 180 false
      (by decide) (by decide) (by decide)).1,
   (C3_roundtrip prob [("soldiers", 20), ("trains", 60)] 180 false
      (by decide) (by decide) (by decide)).2.1⟩

/-! ## Empty-constraint models: structure of the standard form -/

theorem all_congr_list {α : Type} (l : List α) (f g : α → Bool)
    (h : ∀ a ∈ l, f a = g a) : l.all f = l.all g := by
  induction l with
  | nil => rfl
  | cons a t ih =>
    rw [List.all_cons, List.all_cons, h a (List.mem_cons_self a t),
      ih (fun a ha => h a (List.mem_cons_of_mem _ ha))]

theorem mem_boundVars_iff (md : Model) (j : Nat) :
    j ∈ md.boundVars ↔ j < md.nv ∧ ((md.vars.getD j default).upper).isSome = true := by
  unfold Model.boundVars
  simp [List.mem_filter, List.mem_range]

theorem bv_spec (md : Model) {i : Nat} (hi : i < md.boundVars.length) :
    md.bv i < md.nv ∧ ((md.vars.getD (md.bv i) default).upper).isSome = true := by
  have hmem : md.bv i ∈ md.boundVars := by
    unfold Model.bv
    rw [List.getD_eq_getElem _ _ hi]
    exact List.getElem_mem hi
  exact (mem_boundVars_iff md _).mp hmem

theorem bv_inj (md : Model) {i i' : Nat} (hi : i < md.boundVars.length)
    (hi' : i' < md.boundVars.length) (h : md.bv i = md.bv i') : i = i' := by
  unfold Model.bv at h
  rw [List.getD_eq_getElem _ _ hi, List.getD_eq_getElem _ _ hi'] at h
  have hnd : md.boundVars.Nodup := (List.nodup_range _).filter _
  exact (List.Nodup.getElem_inj_iff hnd).mp h

theorem filterMap_upper (md : Model) : ∀ l : List Nat,
    (l.filterMap (fun j =>
      match (md.vars.getD j default).upper with
      | none => none
      | some u => some ({ coef := fun k => if k = j then (1 : ℚ) else 0
                          op := ConstraintOp.le
                          rhs := u - md.lowerB j } : PreRow)))
    = (l.filter (fun j => ((md.vars.getD j default).upper).isSome)).map (fun j =>
        ({ coef := fun k => if k = j then (1 : ℚ) else 0
           op := ConstraintOp.le
           rhs := md.upperOf j - md.lowerB j } : PreRow)) := by
  intro l
  induction l with
  | nil => rfl
  | cons a t ih =>
    rw [List.filterMap_cons, List.filter_cons]
    cases hu : (md.vars.getD a default).upper with
    | none => simpa using ih
    | some u =>
      simp only [Option.isSome_some, if_pos, List.map_cons]
      rw [ih]
      have hu' : ((md.vars[a]?.getD default).upper) = some u := by
        rw [← List.getD_eq_getElem?_getD]; exact hu
      simp [Model.upperOf, hu']

theorem preRows_empty (md : Model) (hc : md.constraints = []) :
    md.preRows = md.boundVars.map (fun j =>
      ({ coef := fun k => if k = j then (1 : ℚ) else 0
         op := ConstraintOp.le
         rhs := md.upperOf j - md.lowerB j } : PreRow)) := by
  unfold Model.preRows Model.boundVars
  rw [hc]
  rw [List.map_nil, List.nil_append]
  exact filterMap_upper md (List.range md.nv)

theorem mRows_empty (md : Model) (hc : md.constraints = []) :
    md.mRows = md.boundVars.length := by
  unfold Model.mRows
  rw [srows_length, preRows_empty md hc, List.length_map]

theorem rhs_nonneg_empty (md : Model)
    (hul : ∀ v ∈ md.vars, ∀ u, v.upper = some u → v.lower ≤ u)
    {j : Nat} (hj : j ∈ md.boundVars) :
    md.lowerB j ≤ md.upperOf j := by
  rw [mem_boundVars_iff] at hj
  obtain ⟨hjlt, hs⟩ := hj
  cases hu : (md.vars.getD j default).upper with
  | none => rw [hu] at hs; simp at hs
  | some u =>
    have hjv : j < md.vars.length := hjlt
    have hmem : md.vars.getD j default ∈ md.vars := by
      rw [List.getD_eq_getElem _ _ hjv]
      exact List.getElem_mem hjv
    have h1 := hul _ hmem u hu
    unfold Model.upperOf Model.lowerB
    rw [hu]
    simpa using h1

theorem na_empty (md : Model) (hc : md.constraints = [])
    (hul : ∀ v ∈ md.vars, ∀ u, v.upper = some u → v.lower ≤ u) : md.na = 0 := by
  unfold Model.na
  rw [List.length_eq_zero, List.filter_eq_nil_iff]
  intro s hs
  unfold Model.srows at hs
  rw [List.mem_map] at hs
  obtain ⟨P, hP, rfl⟩ := hs
  rw [preRows_empty md hc, List.mem_map] at hP
  obtain ⟨j, hj, rfl⟩ := hP
  unfold PreRow.toSRow
  rw [if_neg (by
    have h1 := rhs_nonneg_empty md hul hj
    dsimp
    linarith)]
  dsimp
  unfold PreRow.isLe
  simp

theorem srowAt_empty (md : Model) (hc : md.constraints = [])
    (hul : ∀ v ∈ md.vars, ∀ u, v.upper = some u → v.lower ≤ u)
    {i : Nat} (hi : i < md.boundVars.length) :
    md.srowAt i = { coef := fun k => if k = md.bv i then (1 : ℚ) else 0
                    slack := 1
                    art := false
                    rhs := md.upperOf (md.bv i) - md.lowerB (md.bv i) } := by
  have hm : i < md.mRows := by rw [mRows_empty md hc]; exact hi
  rw [srowAt_lt md hm, preRows_empty md hc]
  rw [List.getD_eq_getElem _ _ (by rw [List.length_map]; exact hi), List.getElem_map]
  have hmemi : md.boundVars[i] ∈ md.boundVars := List.getElem_mem hi
  have hbveq : md.boundVars[i] = md.bv i := by
    unfold Model.bv
    rw [List.getD_eq_getElem _ _ hi]
  rw [hbveq]
  unfold PreRow.toSRow
  rw [if_neg (by
    have h1 := rhs_nonneg_empty md hul (hbveq ▸ hmemi)
    dsimp
    linarith)]
  rfl

theorem unboundedDirection_true_iff (md : Model) :
    md.unboundedDirection = true
      ↔ ∃ j, j < md.nv ∧ (md.vars.getD j default).upper = none ∧ tol < md.ctilde j := by
  unfold Model.unboundedDirection
  rw [List.any_eq_true]
  constructor
  · rintro ⟨j, hj, hb⟩
    rw [List.mem_range] at hj
    simp only [Bool.and_eq_true, decide_eq_true_eq, Option.isNone_iff_eq_none] at hb
    exact ⟨j, hj, hb.1, hb.2⟩
  · rintro ⟨j, hj, hnone, hct⟩
    refine ⟨j, List.mem_range.mpr hj, ?_⟩
    have h1 : ((md.vars.getD j default).upper).isNone = true := by rw [hnone]; rfl
    simp only [Bool.and_eq_true, decide_eq_true_eq]
    exact ⟨h1, hct⟩

/-! ## Box states: the phase-2 loop on an empty-constraint model -/

theorem priceOut_m (T : Tableau) (raw : Nat → ℚ) (v : ℚ) : (T.priceOut raw v).m = T.m := rfl

theorem priceOut_n (T : Tableau) (raw : Nat → ℚ) (v : ℚ) : (T.priceOut raw v).n = T.n := rfl

theorem priceOut_A (T : Tableau) (raw : Nat → ℚ) (v : ℚ) : (T.priceOut raw v).A = T.A := rfl

theorem priceOut_b (T : Tableau) (raw : Nat → ℚ) (v : ℚ) : (T.priceOut raw v).b = T.b := rfl

theorem priceOut_basis (T : Tableau) (raw : Nat → ℚ) (v : ℚ) :
    (T.priceOut raw v).basis = T.basis := rfl

theorem priceOut_obj (T : Tableau) (raw : Nat → ℚ) (v : ℚ) (j : Nat) :
    (T.priceOut raw v).obj j
      = raw j - ∑ i in Finset.range T.m, raw (T.basis i) * T.A i j := rfl

theorem mem_profSet_iff (md : Model) (i : Nat) :
    i ∈ md.profSet ↔ i < md.boundVars.length ∧ tol < md.ctilde (md.bv i) := by
  unfold Model.profSet
  simp [Finset.mem_filter, Finset.mem_range]

theorem bv_mem (md : Model) {i : Nat} (hi : i < md.boundVars.length) :
    md.bv i ∈ md.boundVars := by
  unfold Model.bv
  rw [List.getD_eq_getElem _ _ hi]
  exact List.getElem_mem hi

theorem mem_boundVars_bv (md : Model) {e : Nat} (he : e ∈ md.boundVars) :
    ∃ r, r < md.boundVars.length ∧ md.bv r = e := by
  obtain ⟨r, hr, hre⟩ := List.mem_iff_getElem.mp he
  refine ⟨r, hr, ?_⟩
  unfold Model.bv
  rw [List.getD_eq_getElem _ _ hr]
  exact hre

theorem boxCol_unit (md : Model) (S : Finset ℕ) (T : Tableau) (H : IsBoxState md S T)
    {r : Nat} (hr : r < T.m) :
    T.A r (md.bv r) = 1 ∧ ∀ i < T.m, i ≠ r → T.A i (md.bv r) = 0 := by
  obtain ⟨hm, hn, hA, _, _, _, _, _⟩ := H
  have hrlen : r < md.boundVars.length := hm ▸ hr
  have hbvlt : md.bv r < md.nv := (bv_spec md hrlen).1
  have hbvn : md.bv r < T.n := by omega
  constructor
  · rw [hA r hr (md.bv r) hbvn, if_pos rfl, if_neg (by omega)]
    norm_num
  · intro i hi hir
    have hilen : i < md.boundVars.length := hm ▸ hi
    rw [hA i hi (md.bv r) hbvn]
    rw [if_neg (fun hbe => hir (bv_inj md hrlen hilen hbe).symm), if_neg (by omega)]
    norm_num

theorem boxColZero (md : Model) (S : Finset ℕ) (T : Tableau) (H : IsBoxState md S T)
    {e : Nat} (henv : e < md.nv) (hnb : e ∉ md.boundVars) :
    ∀ i < T.m, T.A i e = 0 := by
  obtain ⟨hm, hn, hA, _, _, _, _, _⟩ := H
  intro i hi
  have hilen : i < md.boundVars.length := hm ▸ hi
  have hen : e < T.n := by omega
  rw [hA i hi e hen]
  rw [if_neg (fun hbe => hnb (by rw [hbe]; exact bv_mem md hilen)), if_neg (by omega)]
  norm_num

theorem boxState_unitCols (md : Model) (S : Finset ℕ) (T : Tableau)
    (H : IsBoxState md S T) : T.unitCols := by
  have H' := H
  obtain ⟨hm, hn, hA, _, hbas, _, _, _⟩ := H'
  intro i hi i' hi'
  have hilen : i < md.boundVars.length := hm ▸ hi
  rw [hbas i hi]
  by_cases hiS : i ∈ S
  · rw [if_pos hiS]
    obtain ⟨h1, h2⟩ := boxCol_unit md S T H hi
    by_cases hii : i' = i
    · rw [hii, if_pos rfl, h1]
    · rw [if_neg hii, h2 i' hi' hii]
  · rw [if_neg hiS]
    have hilen' : i' < md.boundVars.length := hm ▸ hi'
    have hbvlt' : md.bv i' < md.nv := (bv_spec md hilen').1
    have hnin : md.nv + i < T.n := by omega
    have h1 : ¬ (md.nv + i = md.bv i') := by omega
    rw [hA i' hi' (md.nv + i) hnin, if_neg h1]
    by_cases hii : i' = i
    · have h2 : md.nv + i = md.nv + i' := by omega
      rw [if_pos h2, if_pos hii]
      norm_num
    · have h2 : ¬ (md.nv + i = md.nv + i') := by omega
      rw [if_neg h2, if_neg hii]
      norm_num

theorem boxState_init (md : Model) (hc : md.constraints = [])
    (hul : ∀ v ∈ md.vars, ∀ u, v.upper = some u → v.lower ≤ u) :
    IsBoxState md ∅ ((mkTableau md).priceOut md.rawP2 0) := by
  have hm0 : (mkTableau md).m = md.boundVars.length := by
    rw [mkT_m]; exact mRows_empty md hc
  have hna := na_empty md hc hul
  have hn0 : (mkTableau md).n = md.nv + md.boundVars.length := by
    rw [mkT_n]
    unfold Model.nCols
    rw [mRows_empty md hc, hna]
    omega
  have hbas0 : ∀ i < (mkTableau md).m, (mkTableau md).basis i = md.nv + i := by
    intro i hi
    rw [mkT_basis, srowAt_empty md hc hul (hm0 ▸ hi)]
    simp
  refine ⟨hm0, hn0, ?_, ?_, ?_, ?_, ?_, ?_⟩
  · intro i hi j hj
    have hi' : i < (mkTableau md).m := hi
    have hilen : i < md.boundVars.length := hm0 ▸ hi'
    have hbvlt : md.bv i < md.nv := (bv_spec md hilen).1
    have hAe : ((mkTableau md).priceOut md.rawP2 0).A i j = (mkTableau md).A i j := rfl
    rw [hAe, mkT_A, srowAt_empty md hc hul hilen]
    dsimp only
    have h3 : ¬ ((false = true) ∧ j = md.artStart + md.artIdx i) := by simp
    by_cases hjn : j < md.nv
    · rw [if_pos hjn, if_neg h3]
      ring
    · have h4 : ¬ (j = md.bv i) := by omega
      rw [if_neg hjn, if_neg h3, if_neg h4]
      ring
  · intro i hi
    have hi' : i < (mkTableau md).m := hi
    have hilen : i < md.boundVars.length := hm0 ▸ hi'
    have hbe : ((mkTableau md).priceOut md.rawP2 0).b i = (mkTableau md).b i := rfl
    rw [hbe, mkT_b, srowAt_empty md hc hul hilen]
  · intro i hi
    have hi' : i < (mkTableau md).m := hi
    have hbe : ((mkTableau md).priceOut md.rawP2 0).basis i = (mkTableau md).basis i := rfl
    rw [hbe, hbas0 i hi']
    simp
  · intro j hjnv
    rw [priceOut_obj]
    have hsum : ∑ i in Finset.range (mkTableau md).m,
        md.rawP2 ((mkTableau md).basis i) * (mkTableau md).A i j = 0 := by
      apply Finset.sum_eq_zero
      intro i hi
      rw [Finset.mem_range] at hi
      rw [hbas0 i hi]
      unfold Model.rawP2
      rw [if_neg (by omega)]
      ring
    rw [hsum, sub_zero]
    unfold Model.rawP2
    rw [if_pos hjnv]
    simp
  · intro i hi
    have hi' : i < (mkTableau md).m := hi
    rw [priceOut_obj]
    have hsum : ∑ i2 in Finset.range (mkTableau md).m,
        md.rawP2 ((mkTableau md).basis i2) * (mkTableau md).A i2 (md.nv + i) = 0 := by
      apply Finset.sum_eq_zero
      intro i2 hi2
      rw [Finset.mem_range] at hi2
      rw [hbas0 i2 hi2]
      unfold Model.rawP2
      rw [if_neg (by omega)]
      ring
    rw [hsum, sub_zero]
    unfold Model.rawP2
    rw [if_neg (by omega)]
    simp
  · intro i hi
    exact absurd hi (Finset.not_mem_empty i)

theorem boxState_pivot (md : Model) (S : Finset ℕ) (T : Tableau)
    (H : IsBoxState md S T) (r : Nat) (hr : r < T.m) (hrS : r ∉ S)
    (hct : tol < md.ctilde (md.bv r)) :
    IsBoxState md (insert r S) (T.pivot r (md.bv r)) := by
  have H' := H
  obtain ⟨hm, hn, hA, hb, hbas, hobjS, hobjSl, hS8⟩ := H'
  have hrlen : r < md.boundVars.length := hm ▸ hr
  have hbvlt : md.bv r < md.nv := (bv_spec md hrlen).1
  obtain ⟨hpe, hcol⟩ := boxCol_unit md S T H hr
  have hnoex : ¬ ∃ i ∈ S, md.bv i = md.bv r := by
    rintro ⟨i, hiS, hie⟩
    have him : i < T.m := (hS8 i hiS).1
    exact hrS ((bv_inj md (hm ▸ him) hrlen hie) ▸ hiS)
  have hobr : T.obj (md.bv r) = -(md.ctilde (md.bv r)) := by
    rw [hobjS _ hbvlt, if_neg hnoex]
  refine ⟨hm, hn, ?_, ?_, ?_, ?_, ?_, ?_⟩
  · intro i hi j hj
    have hi' : i < T.m := hi
    have hj' : j < T.n := hj
    by_cases hir : i = r
    · rw [hir, pivot_A_self, hpe, div_one]
      exact hA r hr j hj'
    · rw [pivot_A_ne T r (md.bv r) i j hir, hcol i hi' hir]
      rw [hA i hi' j hj']
      ring
  · intro i hi
    have hi' : i < T.m := hi
    by_cases hir : i = r
    · rw [hir, pivot_b_self, hpe, div_one]
      exact hb r hr
    · rw [pivot_b_ne T r (md.bv r) i hir, hcol i hi' hir]
      rw [hb i hi']
      ring
  · intro i hi
    have hi' : i < T.m := hi
    by_cases hir : i = r
    · rw [hir, pivot_basis_self, if_pos (Finset.mem_insert_self r S)]
    · rw [pivot_basis_ne T r (md.bv r) i hir, hbas i hi']
      by_cases hiS : i ∈ S
      · rw [if_pos hiS, if_pos (Finset.mem_insert_of_mem hiS)]
      · rw [if_neg hiS, if_neg (by
          intro hmem
          rcases Finset.mem_insert.mp hmem with h | h
          · exact hir h
          · exact hiS h)]
  · intro j hjnv
    have hjn : j < T.n := by omega
    have hArj : T.A r j = if j = md.bv r then 1 else 0 := by
      have h5 : ¬ (j = md.nv + r) := by omega
      rw [hA r hr j hjn, if_neg h5]
      ring
    rw [pivot_obj, hpe, div_one, hobr, hArj]
    by_cases hjbr : j = md.bv r
    · rw [if_pos hjbr]
      have hex : ∃ i ∈ insert r S, md.bv i = j :=
        ⟨r, Finset.mem_insert_self r S, hjbr.symm⟩
      rw [if_pos hex, hobjS j hjnv, if_neg (by rw [hjbr]; exact hnoex), hjbr]
      ring
    · rw [if_neg hjbr]
      have hiff : (∃ i ∈ insert r S, md.bv i = j) ↔ (∃ i ∈ S, md.bv i = j) := by
        constructor
        · rintro ⟨i, hmem, hbij⟩
          rcases Finset.mem_insert.mp hmem with h | h
          · exact absurd (h ▸ hbij) (fun he => hjbr he.symm)
          · exact ⟨i, h, hbij⟩
        · rintro ⟨i, hmem, hbij⟩
          exact ⟨i, Finset.mem_insert_of_mem hmem, hbij⟩
      rw [hobjS j hjnv]
      by_cases hex : ∃ i ∈ S, md.bv i = j
      · rw [if_pos hex, if_pos (hiff.mpr hex)]
        ring
      · rw [if_neg hex, if_neg (fun h => hex (hiff.mp h))]
        ring
  · intro i hi
    have hi' : i < T.m := hi
    have hin : md.nv + i < T.n := by omega
    have hAri : T.A r (md.nv + i) = if i = r then 1 else 0 := by
      rw [hA r hr _ hin, if_neg (by omega)]
      by_cases hir : i = r
      · rw [if_pos (by omega), if_pos hir]
        ring
      · rw [if_neg (by omega), if_neg hir]
        ring
    rw [pivot_obj, hpe, div_one, hobr, hAri]
    by_cases hir : i = r
    · rw [if_pos hir, hir, hobjSl r hr, if_neg hrS,
        if_pos (Finset.mem_insert_self r S)]
      ring
    · rw [if_neg hir, hobjSl i hi']
      by_cases hiS : i ∈ S
      · rw [if_pos hiS, if_pos (Finset.mem_insert_of_mem hiS)]
        ring
      · rw [if_neg hiS, if_neg (by
          intro hmem
          rcases Finset.mem_insert.mp hmem with h | h
          · exact hir h
          · exact hiS h)]
        ring
  · intro i hmem
    rcases Finset.mem_insert.mp hmem with h | h
    · subst h
      exact ⟨hr, hct⟩
    · exact hS8 i h

/-! ## Behaviour of the phase-2 loop on a box state -/

theorem boxEnter_spec (md : Model) (S : Finset ℕ) (T : Tableau)
    (H : IsBoxState md S T) (e : Nat) (hce : T.chooseEnter = some e) :
    e < md.nv ∧ tol < md.ctilde e ∧ ¬ ∃ i ∈ S, md.bv i = e := by
  obtain ⟨hm, hn, _, _, _, hobjS, hobjSl, hS8⟩ := H
  have hce' : pickEnter T T.n = some e := hce
  obtain ⟨heltn, hneg⟩ := pickEnter_some T T.n e hce'
  have htp := tol_pos
  by_cases henv : e < md.nv
  · rw [hobjS e henv] at hneg
    by_cases hex : ∃ i ∈ S, md.bv i = e
    · rw [if_pos hex] at hneg
      exact absurd hneg (by linarith)
    · rw [if_neg hex] at hneg
      exact ⟨henv, by linarith, hex⟩
  · exfalso
    have hi : e - md.nv < T.m := by omega
    have he2 : md.nv + (e - md.nv) = e := by omega
    have hoe := hobjSl (e - md.nv) hi
    rw [he2] at hoe
    by_cases hiS : e - md.nv ∈ S
    · rw [if_pos hiS] at hoe
      have := (hS8 _ hiS).2
      rw [hoe] at hneg
      linarith
    · rw [if_neg hiS] at hoe
      rw [hoe] at hneg
      linarith

theorem boxLeave_some (md : Model) (S : Finset ℕ) (T : Tableau)
    (H : IsBoxState md S T) {r : Nat} (hr : r < T.m) :
    T.chooseLeave (md.bv r) = some r := by
  obtain ⟨hpe, hcol⟩ := boxCol_unit md S T H hr
  cases h : T.chooseLeave (md.bv r) with
  | none =>
    have h' : pickLeave T (md.bv r) T.m = none := h
    have := pickLeave_none T (md.bv r) T.m h' r hr
    rw [hpe] at this
    norm_num at this
  | some r2 =>
    have h' : pickLeave T (md.bv r) T.m = some r2 := h
    obtain ⟨hr2, hpos, _⟩ := pickLeave_some T (md.bv r) T.m r2 h'
    by_cases hrr : r2 = r
    · rw [hrr]
    · rw [hcol r2 hr2 hrr] at hpos
      norm_num at hpos

theorem boxLeave_none (md : Model) (S : Finset ℕ) (T : Tableau)
    (H : IsBoxState md S T) {e : Nat} (henv : e < md.nv) (hnb : e ∉ md.boundVars) :
    T.chooseLeave e = none := by
  cases h : T.chooseLeave e with
  | none => rfl
  | some r2 =>
    have h' : pickLeave T e T.m = some r2 := h
    obtain ⟨hr2, hpos, _⟩ := pickLeave_some T e T.m r2 h'
    rw [boxColZero md S T H henv hnb r2 hr2] at hpos
    norm_num at hpos

theorem simplexLoop_unbounded_of_no_pos (T : Tableau) (e fuel : Nat)
    (hce : T.chooseEnter = some e) (hcol : ∀ i < T.m, T.A i e ≤ 0) :
    simplexLoop (fuel + 1) T = LoopResult.unbounded T := by
  have hcl : T.chooseLeave e = none := by
    cases h : T.chooseLeave e with
    | none => rfl
    | some r =>
      have h' : pickLeave T e T.m = some r := h
      obtain ⟨hrm, hpos, _⟩ := pickLeave_some T e T.m r h'
      exact absurd hpos (not_lt.mpr (hcol r hrm))
  simp only [simplexLoop]
  rw [hce]
  dsimp only
  rw [hcl]

theorem box_loop (md : Model) : ∀ fuel S T, (md.profSet \ S).card < fuel →
    IsBoxState md S T →
    (md.unboundedDirection = true →
      ∃ U, simplexLoop fuel T = LoopResult.unbounded U)
    ∧ (md.unboundedDirection = false →
      ∃ U, simplexLoop fuel T = LoopResult.optimal U ∧ IsBoxState md md.profSet U) := by
  intro fuel
  induction fuel with
  | zero => intro S T hcard H; omega
  | succ f ih =>
    intro S T hcard H
    have H' := H
    obtain ⟨hm, hn, hA, hb, hbas, hobjS, hobjSl, hS8⟩ := H'
    cases hce : T.chooseEnter with
    | none =>
      have hce' : pickEnter T T.n = none := hce
      have hnone := pickEnter_none T T.n hce'
      have htp := tol_pos
      have hud : md.unboundedDirection = false := by
        by_contra hcontra
        rw [Bool.not_eq_false, unboundedDirection_true_iff] at hcontra
        obtain ⟨j, hjn, hupn, hctj⟩ := hcontra
        have hnb : ¬ ∃ i ∈ S, md.bv i = j := by
          rintro ⟨i, hiS, hbij⟩
          have him : i < T.m := (hS8 i hiS).1
          have hmem : md.bv i ∈ md.boundVars := bv_mem md (hm ▸ him)
          rw [hbij, mem_boundVars_iff] at hmem
          rw [hupn] at hmem
          simp at hmem
        have hoj : T.obj j = -(md.ctilde j) := by rw [hobjS j hjn, if_neg hnb]
        have hjln : j < T.n := by omega
        have hc2 := hnone j hjln
        rw [hoj] at hc2
        exact hc2 (by linarith)
      have hSP : S = md.profSet := by
        apply Finset.Subset.antisymm
        · intro i hiS
          have h8 := hS8 i hiS
          exact (mem_profSet_iff md i).mpr ⟨hm ▸ h8.1, h8.2⟩
        · intro i hiP
          by_contra hiS
          obtain ⟨hilen, hcti⟩ := (mem_profSet_iff md i).mp hiP
          have him : i < T.m := hm ▸ hilen
          have hbj : md.bv i < md.nv := (bv_spec md hilen).1
          have hnb : ¬ ∃ i2 ∈ S, md.bv i2 = md.bv i := by
            rintro ⟨i2, hi2S, hbi2⟩
            have hi2m : i2 < T.m := (hS8 i2 hi2S).1
            exact hiS ((bv_inj md (hm ▸ hi2m) hilen hbi2) ▸ hi2S)
          have hoj : T.obj (md.bv i) = -(md.ctilde (md.bv i)) := by
            rw [hobjS _ hbj, if_neg hnb]
          have hjln : md.bv i < T.n := by omega
          have hc2 := hnone _ hjln
          rw [hoj] at hc2
          exact hc2 (by linarith)
      have hres : simplexLoop (f + 1) T = LoopResult.optimal T := by
        simp only [simplexLoop]
        rw [hce]
      refine ⟨fun h => ?_, fun _ => ⟨T, hres, hSP ▸ H⟩⟩
      rw [h] at hud
      exact absurd hud (by simp)
    | some e =>
      obtain ⟨henv, hct, hnex⟩ := boxEnter_spec md S T H e hce
      by_cases hbnd : e ∈ md.boundVars
      · obtain ⟨r, hrlen, hbvr⟩ := mem_boundVars_bv md hbnd
        have hrm : r < T.m := hm ▸ hrlen
        have hcl : T.chooseLeave e = some r := by
          rw [← hbvr]
          exact boxLeave_some md S T H hrm
        have hrS : r ∉ S := fun hrS2 => hnex ⟨r, hrS2, hbvr⟩
        have Hp : IsBoxState md (insert r S) (T.pivot r e) := by
          rw [← hbvr]
          exact boxState_pivot md S T H r hrm hrS (by rw [hbvr]; exact hct)
        have hrP : r ∈ md.profSet :=
          (mem_profSet_iff md r).mpr ⟨hrlen, by rw [hbvr]; exact hct⟩
        have hsd : md.profSet \ insert r S = (md.profSet \ S).erase r := by
          ext a
          simp only [Finset.mem_sdiff, Finset.mem_insert, Finset.mem_erase]
          tauto
        have hrin : r ∈ md.profSet \ S := Finset.mem_sdiff.mpr ⟨hrP, hrS⟩
        have hpos : 1 ≤ (md.profSet \ S).card := Finset.card_pos.mpr ⟨r, hrin⟩
        have hcard' : (md.profSet \ insert r S).card < f := by
          rw [hsd, Finset.card_erase_of_mem hrin]
          omega
        have hrec := ih (insert r S) (T.pivot r e) hcard' Hp
        have hstep : simplexLoop (f + 1) T = simplexLoop f (T.pivot r e) := by
          simp only [simplexLoop]
          rw [hce]
          dsimp only
          rw [hcl]
        constructor
        · intro h
          obtain ⟨U, hU⟩ := hrec.1 h
          exact ⟨U, by rw [hstep]; exact hU⟩
        · intro h
          obtain ⟨U, hU, HU⟩ := hrec.2 h
          exact ⟨U, by rw [hstep]; exact hU, HU⟩
      · have hcl : T.chooseLeave e = none := boxLeave_none md S T H henv hbnd
        have hres : simplexLoop (f + 1) T = LoopResult.unbounded T := by
          simp only [simplexLoop]
          rw [hce]
          dsimp only
          rw [hcl]
        have htrue : md.unboundedDirection = true := by
          rw [unboundedDirection_true_iff]
          refine ⟨e, henv, ?_, hct⟩
          cases hu : (md.vars.getD e default).upper with
          | none => rfl
          | some u =>
            exact absurd ((mem_boundVars_iff md e).mpr ⟨henv, by rw [hu]; rfl⟩) hbnd
        refine ⟨fun _ => ⟨T, hres⟩, fun hfalse => ?_⟩
        rw [hfalse] at htrue
        exact absurd htrue (by simp)

/-! ## Reading the final box state back through the reporter -/

theorem boxBasicSol (md : Model) (T : Tableau) (H : IsBoxState md md.profSet T)
    {j : Nat} (hj : j < md.nv) :
    T.basicSol j + md.lowerB j = md.extremeValue j := by
  have H' := H
  obtain ⟨hm, hn, hA, hb, hbas, _, _, _⟩ := H'
  have hU := boxState_unitCols md md.profSet T H
  unfold Model.extremeValue
  by_cases hmem : j ∈ md.boundVars
  · obtain ⟨r, hrlen, hbvr⟩ := mem_boundVars_bv md hmem
    have hrm : r < T.m := hm ▸ hrlen
    cases hu : (md.vars.getD j default).upper with
    | none =>
      have hsome := ((mem_boundVars_iff md j).mp hmem).2
      rw [hu] at hsome
      simp at hsome
    | some u =>
      by_cases hct : tol < md.ctilde j
      · have hrP : r ∈ md.profSet :=
          (mem_profSet_iff md r).mpr ⟨hrlen, by rw [hbvr]; exact hct⟩
        have hbasr : T.basis r = j := by rw [hbas r hrm, if_pos hrP, hbvr]
        have hbs : T.basicSol j = T.b r := by
          rw [← hbasr]
          exact basicSol_basic T hU hrm
        rw [hbs, hb r hrm, hbvr]
        dsimp only
        rw [if_pos hct]
        unfold Model.upperOf
        rw [hu]
        simp
      · have hnb : ∀ i < T.m, T.basis i ≠ j := by
          intro i hi
          rw [hbas i hi]
          by_cases hiS : i ∈ md.profSet
          · rw [if_pos hiS]
            intro hbij
            have hie : i = r := bv_inj md (hm ▸ hi) hrlen (by rw [hbij, ← hbvr])
            subst hie
            obtain ⟨_, hcti⟩ := (mem_profSet_iff md i).mp hiS
            rw [hbvr] at hcti
            exact hct hcti
          · rw [if_neg hiS]
            have hbvlt : md.bv i < md.nv := (bv_spec md (hm ▸ hi)).1
            omega
        rw [basicSol_nonbasic T hnb]
        dsimp only
        rw [if_neg hct]
        ring
  · have hupn : (md.vars.getD j default).upper = none := by
      cases hu : (md.vars.getD j default).upper with
      | none => rfl
      | some u =>
        exact absurd ((mem_boundVars_iff md j).mpr ⟨hj, by rw [hu]; rfl⟩) hmem
    have hnb : ∀ i < T.m, T.basis i ≠ j := by
      intro i hi
      rw [hbas i hi]
      by_cases hiS : i ∈ md.profSet
      · rw [if_pos hiS]
        intro hbij
        exact hmem (hbij ▸ bv_mem md (hm ▸ hi))
      · rw [if_neg hiS]
        omega
    rw [basicSol_nonbasic T hnb, hupn]
    dsimp only
    ring

theorem boxFinal (md : Model) (T : Tableau) (H : IsBoxState md md.profSet T) :
    md.mkResult T = SolverResult.optimal md.extremeValues
      (md.objective.eval (assignOf md.extremeValues)) md.extremeRelax := by
  have hvals : (List.range md.nv).map (fun j => (md.varName j, T.basicSol j + md.lowerB j))
      = md.extremeValues := by
    unfold Model.extremeValues
    apply List.map_congr_left
    intro j hj
    rw [List.mem_range] at hj
    rw [boxBasicSol md T H hj]
  rw [mkResult_eq, hvals]
  have hrelax : ((md.vars.any fun v => v.domain == Domain.integer) &&
      !((List.range md.nv).all (fun j =>
        !((md.vars.getD j default).domain == Domain.integer)
        || isIntegralWithin (T.basicSol j + md.lowerB j)))) = md.extremeRelax := by
    unfold Model.extremeRelax
    have hall : ((List.range md.nv).all (fun j =>
        !((md.vars.getD j default).domain == Domain.integer)
        || isIntegralWithin (T.basicSol j + md.lowerB j)))
      = ((List.range md.nv).all (fun j =>
        !((md.vars.getD j default).domain == Domain.integer)
        || isIntegralWithin (md.extremeValue j))) := by
      apply all_congr_list
      intro j hj
      rw [List.mem_range] at hj
      rw [boxBasicSol md T H hj]
    rw [hall]
  rw [hrelax]

theorem solve_empty_box (md : Model) (hc : md.constraints = [])
    (hvne : md.vars ≠ [])
    (hul : ∀ v ∈ md.vars, ∀ u, v.upper = some u → v.lower ≤ u) :
    (md.unboundedDirection = true → solve md = SolverResult.unbounded)
    ∧ (md.unboundedDirection = false →
        solve md = SolverResult.optimal md.extremeValues
          (md.objective.eval (assignOf md.extremeValues)) md.extremeRelax) := by
  have hna := na_empty md hc hul
  have hsolve : solve md = md.phase2From (mkTableau md) := by
    unfold solve Model.phase1Of
    rw [if_pos hna]
  have Hinit := boxState_init md hc hul
  have hnv : 1 ≤ md.nv := by
    unfold Model.nv
    cases hv : md.vars with
    | nil => exact absurd hv hvne
    | cons a t => simp
  have hmr : md.mRows = md.boundVars.length := mRows_empty md hc
  have hpcard : md.profSet.card ≤ md.boundVars.length := by
    have h2 : md.profSet ⊆ Finset.range md.boundVars.length := Finset.filter_subset _ _
    calc md.profSet.card ≤ (Finset.range md.boundVars.length).card :=
          Finset.card_le_card h2
      _ = md.boundVars.length := Finset.card_range _
  have hcardle : (md.profSet \ ∅).card < fuelOf (mkTableau md) := by
    rw [Finset.sdiff_empty]
    unfold fuelOf
    rw [mkT_m, mkT_n]
    unfold Model.nCols
    omega
  have Hloop := box_loop md (fuelOf (mkTableau md)) ∅
    ((mkTableau md).priceOut md.rawP2 0) hcardle Hinit
  constructor
  · intro htrue
    obtain ⟨U, hU⟩ := Hloop.1 htrue
    rw [hsolve]
    unfold Model.phase2From
    rw [hU]
  · intro hfalse
    obtain ⟨U, hU, HU⟩ := Hloop.2 hfalse
    rw [hsolve]
    unfold Model.phase2From
    rw [hU]
    exact boxFinal md U HU

/-- C8, counterexample to the claim as stated: on `tinyCoeffModel` (maximize
`1e-10 · x` with `x ≥ 0` unbounded above and no constraints) the objective
coefficient of `x` is positive — the sign that allows unbounded increase — and
the objective really can grow without bound, yet `solve` returns `Optimal` at
`x = 0` rather than `Unbounded`, because the reduced cost `-1e-10` is inside
the tolerance `1e-9` and the column is never chosen as entering. -/
theorem C8_counterexample :
    tinyCoeffModel.constraints = []
    ∧ (0 : ℚ) < tinyCoeffModel.ctilde 0
    ∧ tinyCoeffModel.ctilde 0 ≤ tol
    ∧ (tinyCoeffModel.vars.getD 0 default).upper = none
    ∧ solve tinyCoeffModel = SolverResult.optimal [("x", 0)] 0 false
    ∧ solve tinyCoeffModel ≠ SolverResult.unbounded :=
  ⟨by decide, by decide, by decide, by decide, by decide, by decide⟩

/-- C8 (amended): for any model with an empty constraint set, consistent
bounds and at least one variable, `solve` returns `Unbounded` exactly when
some variable's sense-adjusted objective coefficient exceeds the tolerance
`1e-9` in the improving direction while the variable has no upper bound, and
otherwise returns `Optimal` at the bound extremum (upper bound for variables
whose adjusted coefficient exceeds the tolerance, lower bound for the rest);
maximizing `x` with `x ≥ 0` and no constraints yields `Unbounded`; and in the
engine, an entering column with no positive entry in any row makes the
simplex loop return the `Unbounded` terminal state at once. -/
theorem C8_unbounded_corrected (md : Model) (hc : md.constraints = [])
    (hvne : md.vars ≠ [])
    (hul : ∀ v ∈ md.vars, ∀ u, v.upper = some u → v.lower ≤ u) :
    (md.unboundedDirection = true → solve md = SolverResult.unbounded)
    ∧ (md.unboundedDirection = false →
        solve md = SolverResult.optimal md.extremeValues
          (md.objective.eval (assignOf md.extremeValues)) md.extremeRelax)
    ∧ solve unboundedModel = SolverResult.unbounded
    ∧ (∀ (T : Tableau) (e fuel : Nat), T.chooseEnter = some e →
        (∀ i < T.m, T.A i e ≤ 0) →
        simplexLoop (fuel + 1) T = LoopResult.unbounded T) :=
  ⟨(solve_empty_box md hc hvne hul).1, (solve_empty_box md hc hvne hul).2,
   by decide,
   fun T e fuel hce hcol => simplexLoop_unbounded_of_no_pos T e fuel hce hcol⟩

/-- Witness for C8 on the specification's unboundedness test model. -/
theorem C8_witness :
    unboundedModel.constraints = [] ∧ unboundedModel.vars ≠ []
    ∧ unboundedModel.unboundedDirection = true
    ∧ solve unboundedModel = SolverResult.unbounded := by
  have hul : ∀ v ∈ unboundedModel.vars, ∀ u, v.upper = some u → v.lower ≤ u := by
    intro v hv u hu
    simp only [unboundedModel, List.mem_singleton] at hv
    subst hv
    exact absurd hu (by simp)
  exact ⟨rfl, List.cons_ne_nil _ _, by decide,
    (C8_unbounded_corrected unboundedModel rfl (List.cons_ne_nil _ _) hul).1 (by decide)⟩
